import Mathlib

/-
Verification of the treesync tree-comparison engine and action dispatcher
(src/treesync.cpp) against its natural-language specification.

The filesystem is modelled shallowly: a directory entry is an inductive
tree carrying content, mtime, symlink target (with its resolved target
snapshot, standing for the filesystem provider's resolution), and device
numbers.  Filenames are Lean `String`s compared with an explicit
byte-lexicographic comparison `strLt`, mirroring `std::string::operator<`
and the ordering of `std::map` keys (UTF-8 byte order and code-point order
agree).
-/

namespace TreeSync

/-! ## Lexicographic filename order (explicit and executable) -/

/-- Lexicographic comparison of character lists, as `std::string::operator<`
compares bytes (UTF-8 byte order coincides with code-point order). -/
def charListLt : List Char → List Char → Bool
  | [], [] => false
  | [], _ :: _ => true
  | _ :: _, [] => false
  | a :: as, b :: bs => if a < b then true else if b < a then false else charListLt as bs

/-- Key comparison used by the keyed maps (`std::map<std::string, ...>`). -/
def strLt (a b : String) : Bool := charListLt a.toList b.toList

theorem charListLt_asymm : ∀ a b, charListLt a b = true → charListLt b a = false := by
  intro a
  induction a with
  | nil => intro b h; cases b <;> simp_all [charListLt]
  | cons x xs ih =>
    intro b h
    cases b with
    | nil => simp [charListLt] at h
    | cons y ys =>
      simp only [charListLt] at h ⊢
      rcases lt_trichotomy x y with hxy | hxy | hxy
      · rw [if_neg (asymm hxy), if_pos hxy]
      · subst hxy
        rw [if_neg (lt_irrefl x), if_neg (lt_irrefl x)] at h ⊢
        exact ih ys h
      · rw [if_neg (asymm hxy), if_pos hxy] at h
        simp at h

theorem charListLt_total_eq : ∀ a b, charListLt a b = false → charListLt b a = false → a = b := by
  intro a
  induction a with
  | nil => intro b h1 h2; cases b <;> simp_all [charListLt]
  | cons x xs ih =>
    intro b h1 h2
    cases b with
    | nil => simp [charListLt] at h2
    | cons y ys =>
      simp only [charListLt] at h1 h2
      rcases lt_trichotomy x y with hxy | hxy | hxy
      · rw [if_pos hxy] at h1; simp at h1
      · subst hxy
        rw [if_neg (lt_irrefl x), if_neg (lt_irrefl x)] at h1
        rw [if_neg (lt_irrefl x), if_neg (lt_irrefl x)] at h2
        rw [ih ys h1 h2]
      · rw [if_pos hxy] at h2; simp at h2

theorem charListLt_trans : ∀ a b c, charListLt a b = true → charListLt b c = true →
    charListLt a c = true := by
  intro a
  induction a with
  | nil =>
    intro b c h1 h2
    cases b with
    | nil => simp [charListLt] at h1
    | cons y ys => cases c with
      | nil => simp [charListLt] at h2
      | cons z zs => simp [charListLt]
  | cons x xs ih =>
    intro b c h1 h2
    cases b with
    | nil => simp [charListLt] at h1
    | cons y ys =>
      cases c with
      | nil => simp [charListLt] at h2
      | cons z zs =>
        simp only [charListLt] at h1 h2 ⊢
        rcases lt_trichotomy x y with hxy | hxy | hxy
        · rcases lt_trichotomy y z with hyz | hyz | hyz
          · rw [if_pos (lt_trans hxy hyz)]
          · subst hyz; rw [if_pos hxy]
          · rw [if_neg (asymm hyz), if_pos hyz] at h2; simp at h2
        · subst hxy
          rcases lt_trichotomy x z with hxz | hxz | hxz
          · rw [if_pos hxz]
          · subst hxz
            rw [if_neg (lt_irrefl x), if_neg (lt_irrefl x)] at h1 h2 ⊢
            exact ih ys zs h1 h2
          · rw [if_neg (asymm hxz), if_pos hxz] at h2; simp at h2
        · rw [if_neg (asymm hxy), if_pos hxy] at h1; simp at h1

theorem strLt_total_eq (a b : String) (h1 : strLt a b = false) (h2 : strLt b a = false) :
    a = b := by
  have h := charListLt_total_eq a.toList b.toList h1 h2
  cases a with
  | mk da =>
    cases b with
    | mk db =>
      simp only [String.toList] at h
      rw [h]

theorem strLt_asymm (a b : String) (h : strLt a b = true) : strLt b a = false :=
  charListLt_asymm a.toList b.toList h

theorem strLt_trans (a b c : String) (h1 : strLt a b = true) (h2 : strLt b c = true) :
    strLt a c = true :=
  charListLt_trans a.toList b.toList c.toList h1 h2

theorem strLt_irrefl (a : String) : strLt a a = false := by
  by_cases h : strLt a a = true
  · exact strLt_asymm a a h
  · simpa using h

/-! ## Data model: filesystem entries

`ut1::FileType` from MiscUtils.hpp (declared outside src/, names taken from
their uses in treesync.cpp; the comment at the `FT_NON_EXISTING` switch case
documents `FT_BROKEN_SYMLINK` for broken symbolic links). -/

inductive FSKind where
  | regular
  | dir
  | symlink
  | fifo
  | socket
  | block
  | char
  | nonExisting
  | brokenSymlink
deriving DecidableEq, Repr

/-- A filesystem entry as the provider hands it to the core: content bytes,
modification time, symlink target string together with a snapshot of what the
target resolves to (`none` for a broken link), and device numbers. -/
inductive FSTree where
  | regular (content : List Nat) (mtime : Int)
  | dir (mtime : Int) (children : List (String × FSTree))
  | symlink (target : String) (resolved : Option FSTree) (mtime : Int)
  | fifo (mtime : Int)
  | socket (mtime : Int)
  | blockDev (rdev : Nat) (mtime : Int)
  | charDev (rdev : Nat) (mtime : Int)

/-- Directory contents / keyed maps: association lists of (filename, entry). -/
abbrev Entries := List (String × FSTree)

/-- Explicit size measure for the well-founded recursions below. -/
def treeSize : FSTree → Nat
  | .dir _ cs => 1 + dirSize cs
  | .symlink _ r _ => 1 + optSize r
  | _ => 1
where
  optSize : Option FSTree → Nat
    | none => 0
    | some t => treeSize t
  dirSize : Entries → Nat
    | [] => 0
    | (_, t) :: rest => 1 + treeSize t + treeSize.dirSize rest

theorem treeSize_pos (t : FSTree) : 0 < treeSize t := by
  cases t <;> simp [treeSize]

/-- Entry classifier `ut1::getFileType(entry, followSymlinks)`: with
`followSymlinks` a symlink is classified as its resolved target (a broken
link as `brokenSymlink`), otherwise as `symlink`. -/
def getFileType (t : FSTree) (follow : Bool) : FSKind :=
  match t with
  | .regular _ _ => .regular
  | .dir _ _ => .dir
  | .symlink _ r _ =>
    if follow then
      match r with
      | some u => getFileType u follow
      | none => .brokenSymlink
    else .symlink
  | .fifo _ => .fifo
  | .socket _ => .socket
  | .blockDev _ _ => .block
  | .charDev _ _ => .char

/-- `directory_entry::file_size()` / `ut1::readFile`: both dereference
symlinks unconditionally (the regular-file compare branch is only reached
when the classifier already reported `regular`). -/
def fileContentF : FSTree → List Nat
  | .regular c _ => c
  | .symlink _ (some u) _ => fileContentF u
  | _ => []

/-- `std::filesystem::directory_iterator`: listing an entry classified as a
directory, following a symlink to its target directory. -/
def childrenF : FSTree → Entries
  | .dir _ cs => cs
  | .symlink _ (some u) _ => childrenF u
  | _ => []

/-- `std::filesystem::read_symlink`. -/
def readlinkOf : FSTree → String
  | .symlink tgt _ _ => tgt
  | _ => ""

/-- `ut1::getStat(entry).getRDev()` for block/char devices. -/
def rdevOf : FSTree → Nat
  | .blockDev r _ => r
  | .charDev r _ => r
  | _ => 0

/-- `ut1::getLastWriteTime(entry, followSymlinks)`. -/
def mtimeOf (t : FSTree) (follow : Bool) : Int :=
  match t with
  | .regular _ m => m
  | .dir m _ => m
  | .symlink _ r m =>
    if follow then
      match r with
      | some u => mtimeOf u follow
      | none => m
    else m
  | .fifo m => m
  | .socket m => m
  | .blockDev _ m => m
  | .charDev _ m => m

/-- Modelled from the spec: `ut1::hasPrefix` (MiscUtils.hpp is not under
src/); the spec calls `._` "the reserved auxiliary-file prefix" identifying
fork entries. -/
def hasPfx (s p : String) : Bool := p.toList.isPrefixOf s.toList

/-- `TreeDiff::Params`.  `nfd` is modelled from the spec: `ut1::toNfd`
(MiscUtils.hpp is not under src/) applies Unicode canonical (NFD)
decomposition; it is kept abstract as a string function. -/
structure Params where
  ignoreDirs : Bool := false
  ignoreSpecial : Bool := false
  ignoreForksSrc : Bool := false
  ignoreForksDst : Bool := false
  followSymlinks : Bool := false
  ignoreContent : Bool := false
  normalizeFilenames : Bool := false
  nfd : String → String := id

/-- `TreeDiff::ignoreSrcFile`. -/
def ignoreSrcFile (filename : String) (params : Params) : Bool :=
  params.ignoreForksSrc && hasPfx filename "._"

/-- `TreeDiff::ignoreDstFile`. -/
def ignoreDstFile (filename : String) (params : Params) : Bool :=
  params.ignoreForksDst && hasPfx filename "._"

/-- The (possibly normalized) map key of a scanned filename
(treesync.cpp lines 139-143 resp. 157-161). -/
def keyOf (params : Params) (fname : String) : String :=
  if params.normalizeFilenames then params.nfd fname else fname

/-- `std::map` insertion `m[k] = v`: keeps the list strictly sorted by key
and lets a later insert of an existing key overwrite the mapped value. -/
def insertSorted (k : String) (t : FSTree) : Entries → Entries
  | [] => [(k, t)]
  | (k', t') :: rest =>
    if strLt k k' then (k, t) :: (k', t') :: rest
    else if strLt k' k then (k', t') :: insertSorted k t rest
    else (k, t) :: rest

/-- Building one side's keyed map (treesync.cpp lines 131-164): iterate the
directory listing in scan order, skip ignored fork entries, normalize the
key, insert into the sorted map (later entries overwrite equal keys). -/
def buildMap (ign : String → Bool) (params : Params) (entries : Entries) : Entries :=
  entries.foldl
    (fun m e => if ign e.1 then m else insertSorted (keyOf params e.1) e.2 m) []

/-! ## Classification events

The spec's tagged variant { SrcOnly, DstOnly, Match, Mismatch, TypeMismatch,
IgnoredDir, IgnoredFile } plus the two progress callbacks, each carrying the
map key of the entry it concerns.  A recursive `processDir` call's events are
nested under `subdir`. -/

inductive Event where
  | srcOnly (key : String)
  | dstOnly (key : String)
  | matchEv (key : String)
  | mismatchEv (key : String)
  | typeMismatchEv (key : String)
  | ignoredDirEv (key : String)
  | ignoredFileEv (key : String)
  | progressFilesEv (key : String)
  | progressDirsEv
  | subdir (key : String) (sub : List Event)

mutual

/-- Whether an event (including everything nested below it) is one of the
difference events SrcOnly / DstOnly / Mismatch / TypeMismatch. -/
def hasDiff : Event → Bool
  | .srcOnly _ => true
  | .dstOnly _ => true
  | .mismatchEv _ => true
  | .typeMismatchEv _ => true
  | .subdir _ es => hasDiffs es
  | _ => false

/-- Whether any event of a trace contains a difference event. -/
def hasDiffs : List Event → Bool
  | [] => false
  | e :: es => hasDiff e || hasDiffs es

end

/-- The key an event was emitted for (`progressDirs` carries none). -/
def eventKey : Event → Option String
  | .srcOnly k => some k
  | .dstOnly k => some k
  | .matchEv k => some k
  | .mismatchEv k => some k
  | .typeMismatchEv k => some k
  | .ignoredDirEv k => some k
  | .ignoredFileEv k => some k
  | .progressFilesEv k => some k
  | .progressDirsEv => none
  | .subdir k _ => some k

/-- The keys of a trace's top-level events, in emission order. -/
def keysOf (es : List Event) : List String := es.filterMap eventKey

/-- Test for a SrcOnly event carrying the given key. -/
def isSrcOnlyEv (k : String) : Event → Bool
  | .srcOnly k' => k' = k
  | _ => false

/-- Test for a DstOnly event carrying the given key. -/
def isDstOnlyEv (k : String) : Event → Bool
  | .dstOnly k' => k' = k
  | _ => false

/-! ### Size bounds needed for the comparator's termination -/

theorem dirSize_insertSorted (k : String) (t : FSTree) :
    ∀ m, treeSize.dirSize (insertSorted k t m) ≤ 1 + treeSize t + treeSize.dirSize m := by
  intro m
  induction m with
  | nil => simp [insertSorted, treeSize.dirSize]
  | cons hd rest ih =>
    obtain ⟨k', t'⟩ := hd
    simp only [insertSorted]
    split
    · simp [treeSize.dirSize]
    · split
      · simp only [treeSize.dirSize]
        have := ih
        omega
      · simp only [treeSize.dirSize]
        omega

theorem dirSize_buildMap_aux (ign : String → Bool) (params : Params) :
    ∀ (l acc : Entries),
      treeSize.dirSize (List.foldl
        (fun m e => if ign e.1 then m else insertSorted (keyOf params e.1) e.2 m) acc l) ≤
      treeSize.dirSize acc + treeSize.dirSize l := by
  intro l
  induction l with
  | nil => intro acc; simp [treeSize.dirSize]
  | cons e rest ih =>
    intro acc
    obtain ⟨n, t⟩ := e
    simp only [List.foldl, treeSize.dirSize]
    by_cases hig : ign n
    · simp only [hig, if_pos]
      have := ih acc
      omega
    · simp only [hig, if_neg, Bool.false_eq_true, not_false_eq_true]
      have h1 := ih (insertSorted (keyOf params n) t acc)
      have h2 := dirSize_insertSorted (keyOf params n) t acc
      omega

theorem dirSize_buildMap (ign : String → Bool) (params : Params) (l : Entries) :
    treeSize.dirSize (buildMap ign params l) ≤ treeSize.dirSize l := by
  have := dirSize_buildMap_aux ign params l []
  simpa [buildMap, treeSize.dirSize] using this

theorem dirSize_childrenF_lt : ∀ (t : FSTree), treeSize.dirSize (childrenF t) < treeSize t
  | .dir m cs => by simp [childrenF, treeSize]
  | .symlink tg (some u) m => by
    have ih := dirSize_childrenF_lt u
    simp only [childrenF, treeSize, treeSize.optSize]
    omega
  | .symlink tg none m => by simp [childrenF, treeSize, treeSize.optSize, treeSize.dirSize]
  | .regular c m => by simp [childrenF, treeSize, treeSize.dirSize]
  | .fifo m => by simp [childrenF, treeSize, treeSize.dirSize]
  | .socket m => by simp [childrenF, treeSize, treeSize.dirSize]
  | .blockDev r m => by simp [childrenF, treeSize, treeSize.dirSize]
  | .charDev r m => by simp [childrenF, treeSize, treeSize.dirSize]

/-! ## The merge-join directory comparator -/

mutual

/-- `TreeDiff::processDir` (lines 126-307): report progress, build the two
keyed maps (the destination treated as empty when it does not exist), run
the comparison loop, and return the "no difference found" verdict together
with the trace of emitted events. -/
def processDir (params : Params) (src dst : Entries) (dstExists : Bool) :
    Bool × List Event :=
  let smap := buildMap (fun n => ignoreSrcFile n params) params src
  let dmap :=
    if dstExists then buildMap (fun n => ignoreDstFile n params) params dst else []
  let r := mergeLoop params smap dmap
  (r.1, Event.progressDirsEv :: r.2)
termination_by treeSize.dirSize src + treeSize.dirSize dst + 1
decreasing_by
  simp_wf
  have h1 := dirSize_buildMap (fun n => ignoreSrcFile n params) params src
  have h2 : treeSize.dirSize
      (if dstExists = true then buildMap (fun n => ignoreDstFile n params) params dst
       else []) ≤ treeSize.dirSize dst := by
    split
    · exact dirSize_buildMap _ _ _
    · simp [treeSize.dirSize]
  omega

/-- The comparison loop (lines 166-304): walk both sorted maps with parallel
cursors; a key only in the source map is SrcOnly, only in the destination map
DstOnly; on equal keys compare the two classified kinds, emitting
TypeMismatch when they differ and dispatching on the kind otherwise. -/
def mergeLoop (params : Params) : Entries → Entries → Bool × List Event
  | [], [] => (true, [])
  | (sk, _) :: sr, [] =>
    let r := mergeLoop params sr []
    (false, Event.srcOnly sk :: r.2)
  | [], (dk, _) :: dr =>
    let r := mergeLoop params [] dr
    (false, Event.dstOnly dk :: r.2)
  | (sk, st) :: sr, (dk, dt) :: dr =>
    if strLt sk dk then
      let r := mergeLoop params sr ((dk, dt) :: dr)
      (false, Event.srcOnly sk :: r.2)
    else if strLt dk sk then
      let r := mergeLoop params ((sk, st) :: sr) dr
      (false, Event.dstOnly dk :: r.2)
    else
      let c :=
        if getFileType st params.followSymlinks ≠ getFileType dt params.followSymlinks then
          (false, [Event.typeMismatchEv sk])
        else compareSame params sk st dt
      let r := mergeLoop params sr dr
      (c.1 && r.1, c.2 ++ r.2)
termination_by s d => treeSize.dirSize s + treeSize.dirSize d
decreasing_by
  all_goals simp_wf
  all_goals simp only [treeSize.dirSize]
  all_goals omega

/-- Lines 207-299: names and file types match, compare content by kind
(progressFiles first for every non-directory kind; the `FT_BROKEN_SYMLINK`
kind has no switch case in the source and so emits nothing and leaves the
verdict untouched). -/
def compareSame (params : Params) (k : String) (st dt : FSTree) : Bool × List Event :=
  let pf : List Event :=
    if getFileType st params.followSymlinks ≠ FSKind.dir then [Event.progressFilesEv k]
    else []
  match getFileType st params.followSymlinks with
  | .regular =>
    if (fileContentF st).length = (fileContentF dt).length ∧
        (params.ignoreContent = true ∨ fileContentF st = fileContentF dt) then
      (true, pf ++ [Event.matchEv k])
    else
      (false, pf ++ [Event.mismatchEv k])
  | .dir =>
    if params.ignoreDirs then
      (true, pf ++ [Event.ignoredDirEv k, Event.ignoredDirEv k])
    else
      let r := processDir params (childrenF st) (childrenF dt) true
      (r.1, pf ++ [Event.subdir k r.2])
  | .symlink =>
    if readlinkOf st = readlinkOf dt then (true, pf ++ [Event.matchEv k])
    else (false, pf ++ [Event.mismatchEv k])
  | .fifo =>
    if params.ignoreSpecial then (true, pf ++ [Event.ignoredFileEv k, Event.ignoredFileEv k])
    else (true, pf ++ [Event.matchEv k])
  | .socket =>
    if params.ignoreSpecial then (true, pf ++ [Event.ignoredFileEv k, Event.ignoredFileEv k])
    else (true, pf ++ [Event.matchEv k])
  | .block =>
    if params.ignoreSpecial then (true, pf ++ [Event.ignoredFileEv k, Event.ignoredFileEv k])
    else if rdevOf st = rdevOf dt then (true, pf ++ [Event.matchEv k])
    else (false, pf ++ [Event.mismatchEv k])
  | .char =>
    if params.ignoreSpecial then (true, pf ++ [Event.ignoredFileEv k, Event.ignoredFileEv k])
    else if rdevOf st = rdevOf dt then (true, pf ++ [Event.matchEv k])
    else (false, pf ++ [Event.mismatchEv k])
  | .nonExisting => (true, pf ++ [Event.ignoredFileEv k, Event.ignoredFileEv k])
  | .brokenSymlink => (true, pf)
termination_by treeSize st + treeSize dt
decreasing_by
  simp_wf
  have h1 := dirSize_childrenF_lt st
  have h2 := dirSize_childrenF_lt dt
  omega

end

/-! ## Destination filesystem state and mutation primitives

The destination tree is a root directory listing (`Entries`); paths are
component lists from that root.  The raw provider operations (lookup, set,
remove, create-directories) model the `std::filesystem` calls the dispatcher
makes; symbolic links are not traversed inside destination paths. -/

abbrev Path := List String

def lookupName (n : String) : Entries → Option FSTree
  | [] => none
  | (n', t) :: rest => if n' = n then some t else lookupName n rest

def lookupPath (fs : Entries) : Path → Option FSTree
  | [] => none
  | [n] => lookupName n fs
  | n :: rest =>
    match lookupName n fs with
    | some (.dir _ cs) => lookupPath cs rest
    | _ => none

def setName (n : String) (t : FSTree) : Entries → Entries
  | [] => [(n, t)]
  | (n', t') :: rest => if n' = n then (n, t) :: rest else (n', t') :: setName n t rest

def removeName (n : String) : Entries → Entries
  | [] => []
  | (n', t') :: rest => if n' = n then rest else (n', t') :: removeName n rest

/-- Place an entry at a path (the copy primitive's effect); a missing or
non-directory parent makes the provider call fail, modelled as a no-op. -/
def setPath (fs : Entries) : Path → FSTree → Entries
  | [], _ => fs
  | [n], t => setName n t fs
  | n :: rest, t =>
    match lookupName n fs with
    | some (.dir m cs) => setName n (.dir m (setPath cs rest t)) fs
    | _ => fs

def removePath (fs : Entries) : Path → Entries
  | [] => fs
  | [n] => removeName n fs
  | n :: rest =>
    match lookupName n fs with
    | some (.dir m cs) => setName n (.dir m (removePath cs rest)) fs
    | _ => fs

/-- `std::filesystem::create_directories`: create every missing directory
along the path (an existing non-directory in the way would make the call
fail; modelled as stopping there). -/
def mkDirsPath (fs : Entries) : Path → Entries
  | [] => fs
  | n :: rest =>
    match lookupName n fs with
    | some (.dir m cs) => setName n (.dir m (mkDirsPath cs rest)) fs
    | some _ => fs
    | none => setName n (.dir 0 (mkDirsPath [] rest)) fs

/-- `ut1::fsExists` on a destination path. -/
def fsExistsP (fs : Entries) (p : Path) : Bool := (lookupPath fs p).isSome

/-- `ut1::fsIsDirectory(path, followSymlinks)` on a destination path. -/
def fsIsDirP (fs : Entries) (p : Path) (follow : Bool) : Bool :=
  match lookupPath fs p with
  | some t => decide (getFileType t follow = FSKind.dir)
  | none => false

/-- `ut1::fsIsRegular(path, followSymlinks)` on a destination path. -/
def fsIsRegularP (fs : Entries) (p : Path) (follow : Bool) : Bool :=
  match lookupPath fs p with
  | some t => decide (getFileType t follow = FSKind.regular)
  | none => false

/-- `directory_entry::is_directory()` (always follows symlinks). -/
def isDirectoryFollow : FSTree → Bool
  | .dir _ _ => true
  | .symlink _ (some u) _ => isDirectoryFollow u
  | _ => false

/-- Full symlink resolution (what a dereferencing copy reads). -/
def resolveT : FSTree → FSTree
  | .symlink tg (some u) m =>
    match u with
    | .symlink _ _ _ => resolveT u
    | _ => u
  | t => t

/-- What `std::filesystem::copy` writes at the destination for a non-directory
source: with `copy_symlinks` (followSymlinks unset) the entry itself, with
dereferencing (followSymlinks set) its resolved target. -/
def copiedNode (t : FSTree) (follow : Bool) : FSTree := if follow then resolveT t else t

/-- The semantic mutations a run performs on the destination tree. -/
inductive Action where
  | mkdirs (p : Path)
  | copyFile (p : Path)
  | remove (p : Path)
deriving DecidableEq, Repr

/-- One diagnostic output line. -/
inductive LogLine where
  | creating (pfx : String) (p : Path)
  | removing (pfx : String) (kind : FSKind) (p : Path)
  | copying (pfx : String) (kind : FSKind) (src : Path) (dst : Path)
  | diffLine (src : Path) (srcInfo : String) (dst : Path) (dstInfo : String)
  | typeMismatchLine (src : Path) (srcKind : FSKind) (dst : Path) (dstKind : FSKind)
deriving DecidableEq, Repr

/-- Result of one dispatcher step: diagnostic lines, performed mutations, and
the destination tree afterwards. -/
structure FsOut where
  log : List LogLine
  acts : List Action
  fs : Entries

/-- Sequence two steps: concatenate diagnostics and mutations, keep the
second state. -/
def FsOut.andThen (a b : FsOut) : FsOut := ⟨a.log ++ b.log, a.acts ++ b.acts, b.fs⟩

/-- Prepend an already-performed step to a fallible continuation. -/
def prependOut (a : FsOut) : Except String FsOut → Except String FsOut
  | .ok b => .ok (a.andThen b)
  | .error e => .error e

/-- Exception propagation: run the continuation only on success. -/
def bindOut (x : Except String FsOut) (f : FsOut → Except String FsOut) :
    Except String FsOut :=
  match x with
  | .error e => .error e
  | .ok r => f r

/-- `mkDirs` (treesync.cpp lines 407-429): create the directory chain if it
does not exist, print the verbose message, honour dummy mode (note the
`(!fsExists(dir)) || dummyMode` guard), and fail on an existing
non-directory. -/
def mkDirs (dir : Path) (verbose : Bool) (verbosePfx : String) (dummyMode : Bool)
    (fs : Entries) : Except String FsOut :=
  if !(fsExistsP fs dir) || dummyMode then
    .ok ⟨if verbose then [.creating verbosePfx dir] else [],
         if dummyMode then [] else [.mkdirs dir],
         if dummyMode then fs else mkDirsPath fs dir⟩
  else if !(fsIsDirP fs dir false) then
    .error "Cannot create dir on existing non-dir"
  else
    .ok ⟨[], [], fs⟩

mutual

/-- The diagnostic lines and removal actions `removeRecursive` generates for
one entry: directory contents first (without following symlinks), then the
entry itself. -/
def removeLogsActs (t : FSTree) (p : Path) (verbose : Bool) (pfx : String)
    (follow : Bool) : List LogLine × List Action :=
  let sub :=
    match t with
    | .dir _ cs => removeChildrenLA cs p verbose pfx follow
    | _ => ([], [])
  (sub.1 ++ (if verbose then [.removing pfx (getFileType t follow) p] else []),
   sub.2 ++ [.remove p])
termination_by treeSize t
decreasing_by
  simp_wf
  simp only [treeSize]
  omega

def removeChildrenLA (cs : Entries) (p : Path) (verbose : Bool) (pfx : String)
    (follow : Bool) : List LogLine × List Action :=
  match cs with
  | [] => ([], [])
  | (n, c) :: rest =>
    let r1 := removeLogsActs c (p ++ [n]) verbose pfx follow
    let r2 := removeChildrenLA rest p verbose pfx follow
    (r1.1 ++ r2.1, r1.2 ++ r2.2)
termination_by treeSize.dirSize cs
decreasing_by
  all_goals simp_wf
  all_goals simp only [treeSize.dirSize]
  all_goals omega

end

/-- `removeRecursive` (lines 435-455): delete a file or directory tree,
children before parent, logging each entry; dummy mode performs no removal
but prints the same lines. -/
def removeRecursive (dst : Path) (verbose : Bool) (pfx : String) (follow : Bool)
    (dummyMode : Bool) (fs : Entries) : FsOut :=
  match lookupPath fs dst with
  | some t =>
    let la := removeLogsActs t dst verbose pfx follow
    ⟨la.1, if dummyMode then [] else la.2, if dummyMode then fs else removePath fs dst⟩
  | none =>
    ⟨if verbose then [.removing pfx FSKind.nonExisting dst] else [],
     if dummyMode then [] else [.remove dst],
     fs⟩

mutual

/-- `copyRecursive` (lines 465-499): skip ignored source forks; with
overwrite, an existing destination where either side is not a plain regular
file is recursively deleted first; then directories are created and their
contents copied recursively, and non-directories are copied directly. -/
def copyRecursive (srcParent : Path) (name : String) (t : FSTree) (dstdir : Path)
    (overwrite : Bool) (verbose : Bool) (pfx : String) (params : Params)
    (dummyMode : Bool) (fs : Entries) : Except String FsOut :=
  if ignoreSrcFile name params then .ok ⟨[], [], fs⟩
  else
    let dst := dstdir ++ [name]
    let r0 : FsOut :=
      if overwrite && fsExistsP fs dst &&
          (!(decide (getFileType t params.followSymlinks = FSKind.regular)) ||
           !(fsIsRegularP fs dst false)) then
        removeRecursive dst verbose (pfx ++ ": Deleting") params.followSymlinks dummyMode fs
      else ⟨[], [], fs⟩
    prependOut r0 (copyBody srcParent name t dst overwrite verbose pfx params dummyMode r0.fs)
termination_by 2 * treeSize t + 2
decreasing_by
  all_goals simp_wf
  all_goals omega

/-- Lines 480-498 of `copyRecursive`, after the overwrite deletion: create
and fill a directory, or log and perform the single copy. -/
def copyBody (srcParent : Path) (name : String) (t : FSTree) (dst : Path)
    (overwrite : Bool) (verbose : Bool) (pfx : String) (params : Params)
    (dummyMode : Bool) (fs : Entries) : Except String FsOut :=
  if isDirectoryFollow t then
    bindOut (mkDirs dst verbose (pfx ++ ": Creating dir") dummyMode fs) (fun r1 =>
      prependOut r1
        (copyChildren (srcParent ++ [name]) (childrenF t) dst overwrite verbose pfx params
          dummyMode r1.fs))
  else
    let lg : List LogLine :=
      if verbose then
        [.copying pfx (getFileType t params.followSymlinks) (srcParent ++ [name]) dst]
      else []
    if dummyMode then .ok ⟨lg, [], fs⟩
    else if fsExistsP fs dst && !overwrite then .error "copy: destination exists"
    else .ok ⟨lg, [Action.copyFile dst], setPath fs dst (copiedNode t params.followSymlinks)⟩
termination_by 2 * treeSize t + 1
decreasing_by
  simp_wf
  have h := dirSize_childrenF_lt t
  omega

/-- The `for` loop of lines 483-486: copy a directory's children in listing
order, threading the destination state. -/
def copyChildren (srcParent : Path) (cs : Entries) (dstdir : Path) (overwrite : Bool)
    (verbose : Bool) (pfx : String) (params : Params) (dummyMode : Bool)
    (fs : Entries) : Except String FsOut :=
  match cs with
  | [] => .ok ⟨[], [], fs⟩
  | (n, c) :: rest =>
    bindOut (copyRecursive srcParent n c dstdir overwrite verbose pfx params dummyMode fs)
      (fun r1 =>
        prependOut r1
          (copyChildren srcParent rest dstdir overwrite verbose pfx params dummyMode r1.fs))
termination_by 2 * treeSize.dirSize cs + 2
decreasing_by
  all_goals simp_wf
  all_goals simp only [treeSize.dirSize]
  all_goals omega

end

/-- The `Diff:` line of the mismatch handler (lines 687-708): symlink targets
for symlinks, size or same-size detail for files. -/
def mismatchLog (srcT dstT : FSTree) (srcPath dstPath : Path) (params : Params) : LogLine :=
  if getFileType srcT params.followSymlinks = FSKind.symlink then
    .diffLine srcPath (" -> " ++ readlinkOf srcT) dstPath (" -> " ++ readlinkOf dstT)
  else if (fileContentF srcT).length ≠ (fileContentF dstT).length then
    .diffLine srcPath "" dstPath
      (" (size " ++ toString (fileContentF srcT).length ++ " != " ++
        toString (fileContentF dstT).length ++ ")")
  else .diffLine srcPath "" dstPath " (same size, different content)"

/-- `params.mismatch` (lines 685-717): print the diff line in diff mode; in
update mode copy source over destination (with overwrite) iff mtime is
ignored or the source is strictly newer. -/
def mismatchAction (diff update ignoreMtime : Bool) (srcParent : Path) (name : String)
    (srcT : FSTree) (dstPath : Path) (dstT : FSTree) (verbose : Bool) (params : Params)
    (dummyMode : Bool) (fs : Entries) : Except String FsOut :=
  let dl : List LogLine :=
    if diff then [mismatchLog srcT dstT (srcParent ++ [name]) dstPath params] else []
  if update &&
      (ignoreMtime ||
        decide (mtimeOf srcT params.followSymlinks > mtimeOf dstT params.followSymlinks)) then
    prependOut ⟨dl, [], fs⟩
      (copyRecursive srcParent name srcT dstPath.dropLast true verbose "Copying (update)"
        params dummyMode fs)
  else .ok ⟨dl, [], fs⟩

/-- `params.typeMismatch` (lines 719-729): print the type-mismatch line in
diff mode; in update mode copy source over destination (with overwrite),
unconditionally. -/
def typeMismatchAction (diff update : Bool) (srcParent : Path) (name : String)
    (srcT : FSTree) (dstPath : Path) (dstT : FSTree) (verbose : Bool) (params : Params)
    (dummyMode : Bool) (fs : Entries) : Except String FsOut :=
  let dl : List LogLine :=
    if diff then
      [LogLine.typeMismatchLine (srcParent ++ [name])
        (getFileType srcT params.followSymlinks) dstPath
        (getFileType dstT params.followSymlinks)]
    else []
  if update then
    prependOut ⟨dl, [], fs⟩
      (copyRecursive srcParent name srcT dstPath.dropLast true verbose
        "Copying (type mismatch)" params dummyMode fs)
  else .ok ⟨dl, [], fs⟩

/-! ## Verification -/

/-! ### The regular-file comparison (claim C3) -/

theorem compareSame_regular (params : Params) (k : String) (c1 c2 : List Nat) (m1 m2 : Int) :
    compareSame params k (FSTree.regular c1 m1) (FSTree.regular c2 m2) =
      if c1.length = c2.length ∧ (params.ignoreContent = true ∨ c1 = c2) then
        (true, [Event.progressFilesEv k, Event.matchEv k])
      else (false, [Event.progressFilesEv k, Event.mismatchEv k]) := by
  rw [compareSame]
  simp only [getFileType, fileContentF]
  split <;> simp

/-- C3: for a pair of same-named regular files the comparator emits Match
iff their sizes are equal and (content comparison is disabled or their full
byte contents are equal), and emits Mismatch otherwise. -/
theorem regular_files_match_iff (params : Params) (k : String) (c1 c2 : List Nat)
    (m1 m2 : Int) :
    (Event.matchEv k ∈
        (compareSame params k (FSTree.regular c1 m1) (FSTree.regular c2 m2)).2 ↔
      c1.length = c2.length ∧ (params.ignoreContent = true ∨ c1 = c2)) ∧
    (Event.mismatchEv k ∈
        (compareSame params k (FSTree.regular c1 m1) (FSTree.regular c2 m2)).2 ↔
      ¬ (c1.length = c2.length ∧ (params.ignoreContent = true ∨ c1 = c2))) := by
  rw [compareSame_regular]
  by_cases h : c1.length = c2.length ∧ (params.ignoreContent = true ∨ c1 = c2) <;>
    simp [h]

/-! ### A missing destination directory (claim C8) -/

theorem mergeLoop_nil_dst (params : Params) :
    ∀ s : Entries, mergeLoop params s [] =
      (s.isEmpty, s.map (fun kv => Event.srcOnly kv.1)) := by
  intro s
  induction s with
  | nil => rw [mergeLoop]; rfl
  | cons hd tl ih =>
    obtain ⟨sk, st⟩ := hd
    rw [mergeLoop]
    simp [ih]

/-- C8: when the destination directory of a comparison does not exist, the
comparator treats it as empty: the destination keyed map is empty, every
entry of the source keyed map yields exactly a SrcOnly event (in map order),
and the verdict is "equal" exactly when the source map is empty too. -/
theorem processDir_missing_dst (params : Params) (src dst : Entries) :
    processDir params src dst false =
      ((buildMap (fun n => ignoreSrcFile n params) params src).isEmpty,
        Event.progressDirsEv ::
          (buildMap (fun n => ignoreSrcFile n params) params src).map
            (fun kv => Event.srcOnly kv.1)) := by
  rw [processDir]
  simp [mergeLoop_nil_dst]

/-! ### Normalization key collisions (claim C9) -/

theorem insertSorted_same_key (k k' : String) (t1 t2 : FSTree) (hk : k' = k) :
    insertSorted k' t2 [(k, t1)] = [(k', t2)] := by
  subst hk
  simp [insertSorted, strLt_irrefl]

/-- C9: with filename normalization enabled, two distinct raw filenames in
one directory that normalize to the same key occupy one map slot; the entry
scanned later overwrites the earlier one, so the directory's trace reports
exactly one entry (the later one's key) and the earlier entry is never
reported. -/
theorem normalization_collision_drops_entry (params : Params) (a b : String)
    (t1 t2 : FSTree) (dst : Entries)
    (hn : params.normalizeFilenames = true)
    (hf : params.ignoreForksSrc = false)
    (hab : a ≠ b)
    (hk : params.nfd a = params.nfd b) :
    buildMap (fun n => ignoreSrcFile n params) params [(a, t1), (b, t2)] =
      [(params.nfd b, t2)] ∧
    (processDir params [(a, t1), (b, t2)] dst false).2 =
      [Event.progressDirsEv, Event.srcOnly (params.nfd b)] := by
  have hmap : buildMap (fun n => ignoreSrcFile n params) params [(a, t1), (b, t2)] =
      [(params.nfd b, t2)] := by
    simp only [buildMap, List.foldl, ignoreSrcFile, hf, Bool.false_and, if_neg,
      Bool.false_eq_true, not_false_eq_true, keyOf, hn, if_pos]
    rw [insertSorted]
    exact insertSorted_same_key (params.nfd a) (params.nfd b) t1 t2 hk.symm
  refine ⟨hmap, ?_⟩
  rw [processDir_missing_dst, hmap]
  rfl

/-! ### The update-mode mtime guards (claims C4 and C5) -/

/-- C4: in update mode, on a Mismatch event the dispatcher copies the
source over the destination (with overwrite) iff ignore-mtime is set or the
source's mtime is strictly greater than the destination's; otherwise it only
prints and leaves the destination unchanged (no action, same state). -/
theorem update_mismatch_copy_guard (diff ignoreMtime : Bool) (srcParent : Path)
    (name : String) (srcT : FSTree) (dstPath : Path) (dstT : FSTree) (verbose : Bool)
    (params : Params) (dummyMode : Bool) (fs : Entries) :
    (¬ (ignoreMtime = true ∨
          mtimeOf srcT params.followSymlinks > mtimeOf dstT params.followSymlinks) →
      mismatchAction diff true ignoreMtime srcParent name srcT dstPath dstT verbose params
          dummyMode fs =
        .ok ⟨if diff then [mismatchLog srcT dstT (srcParent ++ [name]) dstPath params]
             else [], [], fs⟩) ∧
    ((ignoreMtime = true ∨
        mtimeOf srcT params.followSymlinks > mtimeOf dstT params.followSymlinks) →
      mismatchAction diff true ignoreMtime srcParent name srcT dstPath dstT verbose params
          dummyMode fs =
        prependOut
          ⟨if diff then [mismatchLog srcT dstT (srcParent ++ [name]) dstPath params]
           else [], [], fs⟩
          (copyRecursive srcParent name srcT dstPath.dropLast true verbose
            "Copying (update)" params dummyMode fs)) := by
  constructor
  · intro hguard
    rw [mismatchAction]
    have h1 : ignoreMtime = false := by
      cases ignoreMtime
      · rfl
      · exact absurd (Or.inl rfl) hguard
    have h2 : ¬ mtimeOf srcT params.followSymlinks > mtimeOf dstT params.followSymlinks :=
      fun h => hguard (Or.inr h)
    simp [h1, h2]
  · intro hguard
    rw [mismatchAction]
    rcases hguard with h | h
    · simp [h]
    · simp [h]

/-- C5 counterexample: in update mode with ignore-mtime unset and the source
strictly older than the destination, a TypeMismatch still copies the source
over the destination (the dispatcher has no mtime guard there): the
destination regular file `a` (mtime 5) is deleted and replaced by the source
directory `a` (mtime 0), mutating the destination state. -/
theorem typeMismatch_copies_despite_older_src :
    ¬ (mtimeOf (FSTree.dir 0 []) false > mtimeOf (FSTree.regular [2] 5) false) ∧
    typeMismatchAction false true [] "a" (FSTree.dir 0 []) ["a"] (FSTree.regular [2] 5)
        false {} false [("a", FSTree.regular [2] 5)] =
      .ok ⟨[], [Action.remove ["a"], Action.mkdirs ["a"]], [("a", FSTree.dir 0 [])]⟩ := by
  constructor
  · decide
  · rw [typeMismatchAction]
    simp only [if_pos]
    rw [copyRecursive]
    simp [ignoreSrcFile, hasPfx, fsExistsP, lookupPath, lookupName, getFileType,
      fsIsRegularP, removeRecursive, removeLogsActs, removePath, removeName,
      copyBody, copyChildren, isDirectoryFollow, childrenF, mkDirs, fsIsDirP,
      mkDirsPath, setName, bindOut, prependOut, FsOut.andThen]

/-- C5 amended: in update mode, on a TypeMismatch event the dispatcher
always copies the source over the destination (with overwrite), with no
mtime guard; mtime and ignore-mtime play no role. -/
theorem update_typeMismatch_always_copies (diff : Bool) (srcParent : Path) (name : String)
    (srcT : FSTree) (dstPath : Path) (dstT : FSTree) (verbose : Bool) (params : Params)
    (dummyMode : Bool) (fs : Entries) :
    typeMismatchAction diff true srcParent name srcT dstPath dstT verbose params
        dummyMode fs =
      prependOut
        ⟨if diff then
            [LogLine.typeMismatchLine (srcParent ++ [name])
              (getFileType srcT params.followSymlinks) dstPath
              (getFileType dstT params.followSymlinks)]
          else [], [], fs⟩
        (copyRecursive srcParent name srcT dstPath.dropLast true verbose
          "Copying (type mismatch)" params dummyMode fs) := by
  rw [typeMismatchAction]
  simp

/-! ### Dummy mode (claim C6) -/

/-- C6 counterexample: `mkDirs` on an already existing directory prints the
"creating" line in dummy mode (the guard is `!fsExists(dir) || dummyMode`)
but prints nothing in a real run, so the diagnostic logs of a dummy and a
real run differ in content. -/
theorem dummy_log_differs :
    (mkDirs ["d"] true "Creating dir" true [("d", FSTree.dir 0 [])]).map FsOut.log ≠
    (mkDirs ["d"] true "Creating dir" false [("d", FSTree.dir 0 [])]).map FsOut.log := by
  simp [mkDirs, fsExistsP, lookupPath, lookupName, fsIsDirP, getFileType, Except.map]

/-! ### The overwrite-delete rule of copyRecursive (claim C7) -/

theorem isDirectoryFollow_eq : ∀ t, isDirectoryFollow t = decide (getFileType t true = FSKind.dir)
  | .regular c m => by simp [isDirectoryFollow, getFileType]
  | .dir m cs => by simp [isDirectoryFollow, getFileType]
  | .symlink tg (some u) m => by
    have ih := isDirectoryFollow_eq u
    simp only [isDirectoryFollow, getFileType, if_pos]
    exact ih
  | .symlink tg none m => by simp [isDirectoryFollow, getFileType]
  | .fifo m => by simp [isDirectoryFollow, getFileType]
  | .socket m => by simp [isDirectoryFollow, getFileType]
  | .blockDev r m => by simp [isDirectoryFollow, getFileType]
  | .charDev r m => by simp [isDirectoryFollow, getFileType]

theorem regular_not_isDirectoryFollow (t : FSTree) (follow : Bool)
    (h : getFileType t follow = FSKind.regular) : isDirectoryFollow t = false := by
  cases follow with
  | true => rw [isDirectoryFollow_eq, h]; simp
  | false =>
    cases t with
    | regular c m => simp [isDirectoryFollow]
    | dir m cs => simp [getFileType] at h
    | symlink tg rs m => cases rs <;> simp [getFileType] at h
    | fifo m => simp [getFileType] at h
    | socket m => simp [getFileType] at h
    | blockDev r m => simp [getFileType] at h
    | charDev r m => simp [getFileType] at h

/-- C7: in a copy with overwrite where the destination exists and the source
or the destination is not a plain regular file, `copyRecursive` first runs
the recursive deletion of the destination and only then the copy proper; and
when both sides are plain regular files it performs no removal at all. -/
theorem copy_overwrite_delete_guard (srcParent : Path) (name : String) (t : FSTree)
    (dstdir : Path) (verbose : Bool) (pfx : String) (params : Params) (dummyMode : Bool)
    (fs : Entries) (hig : ignoreSrcFile name params = false) :
    (fsExistsP fs (dstdir ++ [name]) = true →
      ¬ (getFileType t params.followSymlinks = FSKind.regular ∧
          fsIsRegularP fs (dstdir ++ [name]) false = true) →
      copyRecursive srcParent name t dstdir true verbose pfx params dummyMode fs =
        prependOut
          (removeRecursive (dstdir ++ [name]) verbose (pfx ++ ": Deleting")
            params.followSymlinks dummyMode fs)
          (copyBody srcParent name t (dstdir ++ [name]) true verbose pfx params dummyMode
            (removeRecursive (dstdir ++ [name]) verbose (pfx ++ ": Deleting")
              params.followSymlinks dummyMode fs).fs)) ∧
    (getFileType t params.followSymlinks = FSKind.regular →
      fsIsRegularP fs (dstdir ++ [name]) false = true →
      ∀ r, copyRecursive srcParent name t dstdir true verbose pfx params dummyMode fs =
          Except.ok r →
        ∀ p, Action.remove p ∉ r.acts) := by
  constructor
  · intro hex hreg
    have hcond : fsExistsP fs (dstdir ++ [name]) = true ∧
        (¬ getFileType t params.followSymlinks = FSKind.regular ∨
          fsIsRegularP fs (dstdir ++ [name]) false = false) := by
      refine ⟨hex, ?_⟩
      by_cases h1 : getFileType t params.followSymlinks = FSKind.regular
      · right
        by_cases h2 : fsIsRegularP fs (dstdir ++ [name]) false = true
        · exact absurd ⟨h1, h2⟩ hreg
        · simpa using h2
      · left; exact h1
    rw [copyRecursive]
    simp only [hig, Bool.false_eq_true, if_neg, not_false_eq_true, Bool.true_and,
      Bool.and_eq_true, Bool.or_eq_true, Bool.not_eq_true', decide_eq_false_iff_not]
    rw [if_pos hcond]
  · intro hreg1 hreg2 r hr p
    rw [copyRecursive] at hr
    have hguard : (true && fsExistsP fs (dstdir ++ [name]) &&
        (!(decide (getFileType t params.followSymlinks = FSKind.regular)) ||
         !(fsIsRegularP fs (dstdir ++ [name]) false))) = false := by
      simp [hreg1, hreg2]
    rw [hig] at hr
    simp only [Bool.false_eq_true, if_neg, not_false_eq_true, hguard] at hr
    have hdir : isDirectoryFollow t = false :=
      regular_not_isDirectoryFollow t params.followSymlinks hreg1
    rw [copyBody] at hr
    rw [hdir] at hr
    simp only [Bool.false_eq_true, if_neg, not_false_eq_true] at hr
    cases dummyMode with
    | true =>
      simp only [if_pos, prependOut, FsOut.andThen] at hr
      cases hr with
      | refl => simp
    | false =>
      simp only [Bool.false_eq_true, if_neg, not_false_eq_true, Bool.not_true,
        Bool.and_false, prependOut, FsOut.andThen] at hr
      cases hr with
      | refl => simp

/-! ### Dummy mode never mutates (claim C6, amended part) -/

theorem removeRecursive_dummy (dst : Path) (v : Bool) (pfx : String) (follow : Bool)
    (fs : Entries) : ∃ l, removeRecursive dst v pfx follow true fs = ⟨l, [], fs⟩ := by
  rw [removeRecursive]
  split
  · next t heq => exact ⟨(removeLogsActs t dst v pfx follow).1, by simp⟩
  · next heq =>
    exact ⟨if v = true then [LogLine.removing pfx FSKind.nonExisting dst] else [], by simp⟩

theorem copyRecursive_unfold (sp : Path) (name : String) (t : FSTree) (dd : Path)
    (ow v : Bool) (pfx : String) (ps : Params) (dm : Bool) (fs : Entries)
    (hig : ignoreSrcFile name ps = false) :
    copyRecursive sp name t dd ow v pfx ps dm fs =
      prependOut
        (if ow && fsExistsP fs (dd ++ [name]) &&
            (!(decide (getFileType t ps.followSymlinks = FSKind.regular)) ||
             !(fsIsRegularP fs (dd ++ [name]) false)) then
          removeRecursive (dd ++ [name]) v (pfx ++ ": Deleting") ps.followSymlinks dm fs
        else ⟨[], [], fs⟩)
        (copyBody sp name t (dd ++ [name]) ow v pfx ps dm
          (if ow && fsExistsP fs (dd ++ [name]) &&
              (!(decide (getFileType t ps.followSymlinks = FSKind.regular)) ||
               !(fsIsRegularP fs (dd ++ [name]) false)) then
            removeRecursive (dd ++ [name]) v (pfx ++ ": Deleting") ps.followSymlinks dm fs
          else ⟨[], [], fs⟩).fs) := by
  rw [copyRecursive, hig]
  rfl

theorem mkDirs_dummy (dir : Path) (v : Bool) (pfx : String) (fs : Entries) :
    ∃ l, mkDirs dir v pfx true fs = .ok ⟨l, [], fs⟩ := by
  rw [mkDirs]
  simp

theorem copy_dummy_aux : ∀ n : Nat,
    (∀ (t : FSTree) (sp : Path) (name : String) (dd : Path) (ow v : Bool) (pfx : String)
        (ps : Params) (fs : Entries), 2 * treeSize t + 2 ≤ n →
      ∃ l, copyRecursive sp name t dd ow v pfx ps true fs = .ok ⟨l, [], fs⟩) ∧
    (∀ (t : FSTree) (sp : Path) (name : String) (dst : Path) (ow v : Bool) (pfx : String)
        (ps : Params) (fs : Entries), 2 * treeSize t + 1 ≤ n →
      ∃ l, copyBody sp name t dst ow v pfx ps true fs = .ok ⟨l, [], fs⟩) ∧
    (∀ (cs : Entries) (sp : Path) (dd : Path) (ow v : Bool) (pfx : String)
        (ps : Params) (fs : Entries), 2 * treeSize.dirSize cs + 2 ≤ n →
      ∃ l, copyChildren sp cs dd ow v pfx ps true fs = .ok ⟨l, [], fs⟩) := by
  intro n
  induction n using Nat.strong_induction_on with
  | _ n ih =>
    refine ⟨?_, ?_, ?_⟩
    · intro t sp name dd ow v pfx ps fs hn
      by_cases hig : ignoreSrcFile name ps = true
      · exact ⟨[], by rw [copyRecursive, hig]; rfl⟩
      · have hig2 : ignoreSrcFile name ps = false := by simpa using hig
        obtain ⟨lb, hb⟩ := (ih (2 * treeSize t + 1) (by omega)).2.1 t sp name (dd ++ [name])
          ow v pfx ps fs (le_refl _)
        rw [copyRecursive_unfold sp name t dd ow v pfx ps true fs hig2]
        by_cases hg : (ow && fsExistsP fs (dd ++ [name]) &&
            (!(decide (getFileType t ps.followSymlinks = FSKind.regular)) ||
             !(fsIsRegularP fs (dd ++ [name]) false))) = true
        · rw [if_pos hg]
          obtain ⟨lr, hr⟩ := removeRecursive_dummy (dd ++ [name]) v (pfx ++ ": Deleting")
            ps.followSymlinks fs
          rw [hr]
          refine ⟨lr ++ lb, ?_⟩
          simp [hb, prependOut, FsOut.andThen]
        · rw [if_neg hg]
          refine ⟨lb, ?_⟩
          simp [hb, prependOut, FsOut.andThen]
    · intro t sp name dst ow v pfx ps fs hn
      rw [copyBody]
      by_cases hd : isDirectoryFollow t = true
      · rw [if_pos hd]
        obtain ⟨lm, hm⟩ := mkDirs_dummy dst v (pfx ++ ": Creating dir") fs
        rw [hm]
        have hcm : 2 * treeSize.dirSize (childrenF t) + 2 < n := by
          have := dirSize_childrenF_lt t
          omega
        obtain ⟨lc, hc⟩ := (ih (2 * treeSize.dirSize (childrenF t) + 2) hcm).2.2
          (childrenF t) (sp ++ [name]) dst ow v pfx ps fs (le_refl _)
        refine ⟨lm ++ lc, ?_⟩
        simp [bindOut, hc, prependOut, FsOut.andThen]
      · rw [if_neg hd]
        exact ⟨if v = true then
            [LogLine.copying pfx (getFileType t ps.followSymlinks) (sp ++ [name]) dst]
          else [], by simp⟩
    · intro cs sp dd ow v pfx ps fs hn
      match cs with
      | [] => exact ⟨[], by rw [copyChildren]⟩
      | (nm, c) :: rest =>
        rw [copyChildren]
        simp only [treeSize.dirSize] at hn
        obtain ⟨l1, h1⟩ := (ih (2 * treeSize c + 2) (by omega)).1 c sp nm dd ow v pfx ps fs
          (le_refl _)
        rw [h1]
        obtain ⟨l2, h2⟩ := (ih (2 * treeSize.dirSize rest + 2) (by omega)).2.2 rest sp dd
          ow v pfx ps fs (le_refl _)
        refine ⟨l1 ++ l2, ?_⟩
        simp [bindOut, h2, prependOut, FsOut.andThen]

/-- C6 amended: with dummy mode set, none of the mutation primitives the
dispatcher uses (mkDirs, removeRecursive, copyRecursive) performs any
mutation: no action is executed and the destination tree is returned
unchanged.  (The log-identity half of the original claim is refuted by
`dummy_log_differs`.) -/
theorem dummy_mode_never_mutates :
    (∀ (dir : Path) (v : Bool) (pfx : String) (fs : Entries),
      ∃ l, mkDirs dir v pfx true fs = .ok ⟨l, [], fs⟩) ∧
    (∀ (dst : Path) (v : Bool) (pfx : String) (follow : Bool) (fs : Entries),
      ∃ l, removeRecursive dst v pfx follow true fs = ⟨l, [], fs⟩) ∧
    (∀ (sp : Path) (name : String) (t : FSTree) (dd : Path) (ow v : Bool) (pfx : String)
        (ps : Params) (fs : Entries),
      ∃ l, copyRecursive sp name t dd ow v pfx ps true fs = .ok ⟨l, [], fs⟩) :=
  ⟨mkDirs_dummy, removeRecursive_dummy,
    fun sp name t dd ow v pfx ps fs =>
      (copy_dummy_aux (2 * treeSize t + 2)).1 t sp name dd ow v pfx ps fs (le_refl _)⟩

/-! ### Source fork entries are never copied (claim C10) -/

theorem removeActs_aux : ∀ n : Nat,
    (∀ (t : FSTree) (p : Path) (v : Bool) (pfx : String) (f : Bool), treeSize t ≤ n →
      ∀ a ∈ (removeLogsActs t p v pfx f).2, ∃ q, a = Action.remove q) ∧
    (∀ (cs : Entries) (p : Path) (v : Bool) (pfx : String) (f : Bool),
        treeSize.dirSize cs ≤ n →
      ∀ a ∈ (removeChildrenLA cs p v pfx f).2, ∃ q, a = Action.remove q) := by
  intro n
  induction n using Nat.strong_induction_on with
  | _ n ih =>
    constructor
    · intro t p v pfx f hn a ha
      cases t with
      | dir m cs =>
        simp only [removeLogsActs, List.mem_append] at ha
        simp only [treeSize] at hn
        rcases ha with ha | ha
        · exact (ih (treeSize.dirSize cs) (by omega)).2 cs p v pfx f (le_refl _) a ha
        · exact ⟨p, by simpa using ha⟩
      | regular c m => simp only [removeLogsActs] at ha; exact ⟨p, by simpa using ha⟩
      | symlink tg r m => simp only [removeLogsActs] at ha; exact ⟨p, by simpa using ha⟩
      | fifo m => simp only [removeLogsActs] at ha; exact ⟨p, by simpa using ha⟩
      | socket m => simp only [removeLogsActs] at ha; exact ⟨p, by simpa using ha⟩
      | blockDev rd m => simp only [removeLogsActs] at ha; exact ⟨p, by simpa using ha⟩
      | charDev rd m => simp only [removeLogsActs] at ha; exact ⟨p, by simpa using ha⟩
    · intro cs p v pfx f hn a ha
      match cs with
      | [] =>
        rw [removeChildrenLA] at ha
        simp at ha
      | (nm, c) :: rest =>
        rw [removeChildrenLA] at ha
        simp only [treeSize.dirSize] at hn
        simp only [List.mem_append] at ha
        rcases ha with ha | ha
        · exact (ih (treeSize c) (by omega)).1 c (p ++ [nm]) v pfx f (le_refl _) a ha
        · exact (ih (treeSize.dirSize rest) (by omega)).2 rest p v pfx f (le_refl _) a ha

theorem removeLogsActs_acts (t : FSTree) (p : Path) (v : Bool) (pfx : String) (f : Bool) :
    ∀ a ∈ (removeLogsActs t p v pfx f).2, ∃ q, a = Action.remove q :=
  (removeActs_aux (treeSize t)).1 t p v pfx f (le_refl _)

theorem removeRecursive_acts (dst : Path) (v : Bool) (pfx : String) (f dm : Bool)
    (fs : Entries) :
    ∀ a ∈ (removeRecursive dst v pfx f dm fs).acts, ∃ q, a = Action.remove q := by
  intro a ha
  rw [removeRecursive] at ha
  split at ha
  · next t heq =>
    simp only at ha
    cases dm with
    | true => simp at ha
    | false => exact removeLogsActs_acts t dst v pfx f a (by simpa using ha)
  · next heq =>
    simp only at ha
    cases dm with
    | true => simp at ha
    | false => exact ⟨dst, by simpa using ha⟩

theorem mkDirs_acts (dir : Path) (v : Bool) (pfx : String) (dm : Bool) (fs : Entries)
    (r : FsOut) (hr : mkDirs dir v pfx dm fs = .ok r) :
    ∀ a ∈ r.acts, a = Action.mkdirs dir := by
  intro a ha
  rw [mkDirs] at hr
  split at hr
  · cases hr with
    | refl =>
      simp only at ha
      cases dm with
      | true => simp at ha
      | false => simpa using ha
  · split at hr
    · cases hr
    · cases hr with
      | refl => simp at ha

theorem bindOut_eq_ok {x : Except String FsOut} {f : FsOut → Except String FsOut}
    {r : FsOut} (h : bindOut x f = .ok r) : ∃ b, x = .ok b ∧ f b = .ok r := by
  cases x with
  | error e => simp [bindOut] at h
  | ok b => exact ⟨b, rfl, by simpa [bindOut] using h⟩

theorem prependOut_eq_ok {a : FsOut} {x : Except String FsOut} {r : FsOut}
    (h : prependOut a x = .ok r) : ∃ b, x = .ok b ∧ r = a.andThen b := by
  cases x with
  | error e => simp [prependOut] at h
  | ok b =>
    simp only [prependOut] at h
    cases h with
    | refl => exact ⟨b, rfl, rfl⟩

theorem copy_forks_aux (ps : Params) (hforks : ps.ignoreForksSrc = true) : ∀ n : Nat,
    (∀ (t : FSTree) (sp : Path) (name : String) (dd : Path) (ow v : Bool) (pfx : String)
        (dm : Bool) (fs : Entries), 2 * treeSize t + 2 ≤ n →
      (hasPfx name "._" = true →
        copyRecursive sp name t dd ow v pfx ps dm fs = .ok ⟨[], [], fs⟩) ∧
      (∀ r, copyRecursive sp name t dd ow v pfx ps dm fs = .ok r →
        ∀ a ∈ r.acts, ∀ p : Path, a = Action.mkdirs p ∨ a = Action.copyFile p →
          ∃ q, p = dd ++ q ∧ q ≠ [] ∧ ∀ c ∈ q, hasPfx c "._" = false)) ∧
    (∀ (t : FSTree) (sp : Path) (name : String) (dst : Path) (ow v : Bool) (pfx : String)
        (dm : Bool) (fs : Entries), 2 * treeSize t + 1 ≤ n →
      ∀ r, copyBody sp name t dst ow v pfx ps dm fs = .ok r →
        ∀ a ∈ r.acts, ∀ p : Path, a = Action.mkdirs p ∨ a = Action.copyFile p →
          p = dst ∨ ∃ q, p = dst ++ q ∧ q ≠ [] ∧ ∀ c ∈ q, hasPfx c "._" = false) ∧
    (∀ (cs : Entries) (sp : Path) (dd : Path) (ow v : Bool) (pfx : String) (dm : Bool)
        (fs : Entries), 2 * treeSize.dirSize cs + 2 ≤ n →
      ∀ r, copyChildren sp cs dd ow v pfx ps dm fs = .ok r →
        ∀ a ∈ r.acts, ∀ p : Path, a = Action.mkdirs p ∨ a = Action.copyFile p →
          ∃ q, p = dd ++ q ∧ q ≠ [] ∧ ∀ c ∈ q, hasPfx c "._" = false) := by
  intro n
  induction n using Nat.strong_induction_on with
  | _ n ih =>
    refine ⟨?_, ?_, ?_⟩
    · intro t sp name dd ow v pfx dm fs hn
      by_cases hp : hasPfx name "._" = true
      · have hig : ignoreSrcFile name ps = true := by simp [ignoreSrcFile, hforks, hp]
        constructor
        · intro _
          rw [copyRecursive, hig]
          rfl
        · intro r hr a ha p hap
          rw [copyRecursive, hig, if_pos rfl] at hr
          cases hr with
          | refl => simp at ha
      · have hp2 : hasPfx name "._" = false := by simpa using hp
        have hig : ignoreSrcFile name ps = false := by simp [ignoreSrcFile, hp2]
        constructor
        · intro hcontra
          exact absurd hcontra hp
        · intro r hr a ha p hap
          rw [copyRecursive_unfold sp name t dd ow v pfx ps dm fs hig] at hr
          obtain ⟨rb, hB, hreq⟩ := prependOut_eq_ok hr
          subst hreq
          simp only [FsOut.andThen, List.mem_append] at ha
          rcases ha with ha | ha
          · by_cases hg : (ow && fsExistsP fs (dd ++ [name]) &&
                (!(decide (getFileType t ps.followSymlinks = FSKind.regular)) ||
                 !(fsIsRegularP fs (dd ++ [name]) false))) = true
            · rw [if_pos hg] at ha
              obtain ⟨q, hq⟩ := removeRecursive_acts (dd ++ [name]) v (pfx ++ ": Deleting")
                ps.followSymlinks dm fs a ha
              rcases hap with hap | hap <;> (subst hap; simp at hq)
            · rw [if_neg hg] at ha
              simp at ha
          · have hbody := (ih (2 * treeSize t + 1) (by omega)).2.1 t sp name (dd ++ [name])
              ow v pfx dm _ (le_refl _) rb hB a ha p hap
            rcases hbody with hpd | ⟨q, hq1, hq2, hq3⟩
            · refine ⟨[name], by rw [hpd], by simp, ?_⟩
              intro c hc
              rw [List.mem_singleton] at hc
              subst hc
              exact hp2
            · refine ⟨name :: q, ?_, by simp, ?_⟩
              · rw [hq1]
                simp
              · intro c hc
                rcases List.mem_cons.mp hc with hc | hc
                · subst hc; exact hp2
                · exact hq3 c hc
    · intro t sp name dst ow v pfx dm fs hn r hr a ha p hap
      by_cases hd : isDirectoryFollow t = true
      · rw [copyBody, if_pos hd] at hr
        obtain ⟨r1, hm, hrest⟩ := bindOut_eq_ok hr
        obtain ⟨rc, hcc, hreq⟩ := prependOut_eq_ok hrest
        subst hreq
        simp only [FsOut.andThen, List.mem_append] at ha
        rcases ha with ha | ha
        · have hma := mkDirs_acts dst v (pfx ++ ": Creating dir") dm fs r1 hm a ha
          rcases hap with hap | hap
          · subst hap
            exact Or.inl (Action.mkdirs.inj hma)
          · subst hap
            simp at hma
        · have hcm : 2 * treeSize.dirSize (childrenF t) + 2 < n := by
            have := dirSize_childrenF_lt t
            omega
          right
          exact (ih (2 * treeSize.dirSize (childrenF t) + 2) hcm).2.2 (childrenF t)
            (sp ++ [name]) dst ow v pfx dm r1.fs (le_refl _) rc hcc a ha p hap
      · rw [copyBody, if_neg hd] at hr
        cases dm with
        | true =>
          rw [if_pos rfl] at hr
          cases hr with
          | refl => simp at ha
        | false =>
          rw [if_neg (by simp)] at hr
          split at hr
          · simp at hr
          · cases hr with
            | refl =>
              simp only [List.mem_singleton] at ha
              subst ha
              rcases hap with hap | hap
              · simp at hap
              · exact Or.inl (Action.copyFile.inj hap).symm
    · intro cs sp dd ow v pfx dm fs hn r hr a ha p hap
      match cs with
      | [] =>
        rw [copyChildren] at hr
        cases hr with
        | refl => simp at ha
      | (nm, c) :: rest =>
        rw [copyChildren] at hr
        simp only [treeSize.dirSize] at hn
        obtain ⟨r1, h1, hrest⟩ := bindOut_eq_ok hr
        obtain ⟨r2, h2, hreq⟩ := prependOut_eq_ok hrest
        subst hreq
        simp only [FsOut.andThen, List.mem_append] at ha
        rcases ha with ha | ha
        · exact ((ih (2 * treeSize c + 2) (by omega)).1 c sp nm dd ow v pfx dm fs
            (le_refl _)).2 r1 h1 a ha p hap
        · exact (ih (2 * treeSize.dirSize rest + 2) (by omega)).2.2 rest sp dd ow v pfx dm
            r1.fs (le_refl _) r2 h2 a ha p hap

/-- C10: with source-side fork filtering enabled, copyRecursive performs no
action at all for a source entry whose filename carries the reserved "._"
fork prefix (no log line, no action, destination unchanged), and at every
recursion level every entry it creates under the destination directory (a
created directory or a copied file) lies at a path of non-fork source names,
so fork entries are never created in the destination. -/
theorem forks_never_copied (params : Params) (sp : Path) (name : String) (t : FSTree)
    (dd : Path) (ow v : Bool) (pfx : String) (dm : Bool) (fs : Entries)
    (hforks : params.ignoreForksSrc = true) :
    (hasPfx name "._" = true →
      copyRecursive sp name t dd ow v pfx params dm fs = .ok ⟨[], [], fs⟩) ∧
    (∀ r, copyRecursive sp name t dd ow v pfx params dm fs = .ok r →
      ∀ a ∈ r.acts, ∀ p : Path, a = Action.mkdirs p ∨ a = Action.copyFile p →
        ∃ q, p = dd ++ q ∧ q ≠ [] ∧ ∀ c ∈ q, hasPfx c "._" = false) :=
  (copy_forks_aux params hforks (2 * treeSize t + 2)).1 t sp name dd ow v pfx dm fs
    (le_refl _)

/-! ### The subtree-equality verdict (claim C1) -/

theorem hasDiffs_append : ∀ xs ys, hasDiffs (xs ++ ys) = (hasDiffs xs || hasDiffs ys) := by
  intro xs ys
  induction xs with
  | nil => simp [hasDiffs]
  | cons e es ih => simp [hasDiffs, ih, Bool.or_assoc]

theorem verdict_aux : ∀ n : Nat,
    (∀ (params : Params) (s d : Entries),
      treeSize.dirSize s + treeSize.dirSize d ≤ n →
      (mergeLoop params s d).1 = !hasDiffs (mergeLoop params s d).2) ∧
    (∀ (params : Params) (k : String) (st dt : FSTree),
      treeSize st + treeSize dt ≤ n →
      (compareSame params k st dt).1 = !hasDiffs (compareSame params k st dt).2) := by
  intro n
  induction n using Nat.strong_induction_on with
  | _ n ih =>
    constructor
    · intro params s d hn
      match s, d with
      | [], [] => rw [mergeLoop]; simp [hasDiffs]
      | (sk, st) :: sr, [] => rw [mergeLoop]; simp [hasDiffs, hasDiff]
      | [], (dk, dt) :: dr => rw [mergeLoop]; simp [hasDiffs, hasDiff]
      | (sk, st) :: sr, (dk, dt) :: dr =>
        rw [mergeLoop]
        simp only [treeSize.dirSize] at hn
        by_cases h1 : strLt sk dk = true
        · rw [if_pos h1]
          simp [hasDiffs, hasDiff]
        · rw [if_neg h1]
          by_cases h2 : strLt dk sk = true
          · rw [if_pos h2]
            simp [hasDiffs, hasDiff]
          · rw [if_neg h2]
            have hr := (ih (treeSize.dirSize sr + treeSize.dirSize dr) (by omega)).1
              params sr dr (le_refl _)
            simp only [hasDiffs_append]
            by_cases hty : getFileType st params.followSymlinks ≠
                getFileType dt params.followSymlinks
            · rw [if_pos hty]
              simp [hasDiffs, hasDiff, hr]
            · rw [if_neg hty]
              have hc := (ih (treeSize st + treeSize dt) (by omega)).2
                params sk st dt (le_refl _)
              rw [hc, hr, Bool.not_or]
    · intro params k st dt hn
      rw [compareSame]
      split
      · next hty =>
        by_cases hcond : (fileContentF st).length = (fileContentF dt).length ∧
            (params.ignoreContent = true ∨ fileContentF st = fileContentF dt)
        · rw [if_pos hcond]
          simp [hty, hasDiffs, hasDiff, hasDiffs_append]
        · rw [if_neg hcond]
          simp [hty, hasDiffs, hasDiff, hasDiffs_append]
      · next hty =>
        by_cases hid : params.ignoreDirs = true
        · rw [if_pos hid]
          simp [hty, hasDiffs, hasDiff, hasDiffs_append]
        · rw [if_neg hid]
          rw [processDir]
          have hb1 := dirSize_buildMap (fun n => ignoreSrcFile n params) params (childrenF st)
          have hb2 := dirSize_buildMap (fun n => ignoreDstFile n params) params (childrenF dt)
          have hc1 := dirSize_childrenF_lt st
          have hc2 := dirSize_childrenF_lt dt
          have hm := (ih (treeSize.dirSize
                (buildMap (fun n => ignoreSrcFile n params) params (childrenF st)) +
              treeSize.dirSize
                (buildMap (fun n => ignoreDstFile n params) params (childrenF dt)))
              (by omega)).1 params
            (buildMap (fun n => ignoreSrcFile n params) params (childrenF st))
            (buildMap (fun n => ignoreDstFile n params) params (childrenF dt)) (le_refl _)
          simp [hty, hasDiffs, hasDiff, hasDiffs_append, hm]
      · next hty =>
        by_cases hl : readlinkOf st = readlinkOf dt
        · rw [if_pos hl]
          simp [hty, hasDiffs, hasDiff, hasDiffs_append]
        · rw [if_neg hl]
          simp [hty, hasDiffs, hasDiff, hasDiffs_append]
      · next hty =>
        by_cases hs : params.ignoreSpecial = true
        · rw [if_pos hs]
          simp [hty, hasDiffs, hasDiff, hasDiffs_append]
        · rw [if_neg hs]
          simp [hty, hasDiffs, hasDiff, hasDiffs_append]
      · next hty =>
        by_cases hs : params.ignoreSpecial = true
        · rw [if_pos hs]
          simp [hty, hasDiffs, hasDiff, hasDiffs_append]
        · rw [if_neg hs]
          simp [hty, hasDiffs, hasDiff, hasDiffs_append]
      · next hty =>
        by_cases hs : params.ignoreSpecial = true
        · rw [if_pos hs]
          simp [hty, hasDiffs, hasDiff, hasDiffs_append]
        · rw [if_neg hs]
          by_cases hrd : rdevOf st = rdevOf dt
          · rw [if_pos hrd]
            simp [hty, hasDiffs, hasDiff, hasDiffs_append]
          · rw [if_neg hrd]
            simp [hty, hasDiffs, hasDiff, hasDiffs_append]
      · next hty =>
        by_cases hs : params.ignoreSpecial = true
        · rw [if_pos hs]
          simp [hty, hasDiffs, hasDiff, hasDiffs_append]
        · rw [if_neg hs]
          by_cases hrd : rdevOf st = rdevOf dt
          · rw [if_pos hrd]
            simp [hty, hasDiffs, hasDiff, hasDiffs_append]
          · rw [if_neg hrd]
            simp [hty, hasDiffs, hasDiff, hasDiffs_append]
      · next hty =>
        simp [hty, hasDiffs, hasDiff, hasDiffs_append]
      · next hty =>
        simp [hty, hasDiffs, hasDiff, hasDiffs_append]

/-- C1: processDir returns true ("subtree equal") iff no SrcOnly, DstOnly,
Mismatch or TypeMismatch event occurs anywhere in its trace, nested subtrees
included; IgnoredDir, IgnoredFile, Match and progress events never make the
result false. -/
theorem processDir_true_iff_no_diff (params : Params) (src dst : Entries)
    (dstExists : Bool) :
    (processDir params src dst dstExists).1 = true ↔
      hasDiffs (processDir params src dst dstExists).2 = false := by
  rw [processDir]
  have hm := (verdict_aux (treeSize.dirSize
        (buildMap (fun n => ignoreSrcFile n params) params src) +
      treeSize.dirSize
        (if dstExists then buildMap (fun n => ignoreDstFile n params) params dst
         else []))).1 params
    (buildMap (fun n => ignoreSrcFile n params) params src)
    (if dstExists then buildMap (fun n => ignoreDstFile n params) params dst else [])
    (le_refl _)
  simp [hasDiffs, hasDiff, hm]

/-! ### Counts and ordering of the merge-join (claim C2) -/

theorem keys_insertSorted (k : String) (t : FSTree) :
    ∀ (m : Entries) (k' : String),
      k' ∈ (insertSorted k t m).map Prod.fst ↔ k' = k ∨ k' ∈ m.map Prod.fst := by
  intro m
  induction m with
  | nil => intro k'; simp [insertSorted]
  | cons hd rest ih =>
    obtain ⟨k0, t0⟩ := hd
    intro k'
    rw [insertSorted]
    by_cases h1 : strLt k k0 = true
    · rw [if_pos h1]
      simp
      try tauto
    · rw [if_neg h1]
      by_cases h2 : strLt k0 k = true
      · rw [if_pos h2]
        simp [ih]
        try tauto
      · rw [if_neg h2]
        have hk : k = k0 := strLt_total_eq k k0 (by simpa using h1) (by simpa using h2)
        subst hk
        simp
        try tauto

theorem sorted_insertSorted (k : String) (t : FSTree) :
    ∀ m : Entries, m.Pairwise (fun a b => strLt a.1 b.1 = true) →
      (insertSorted k t m).Pairwise (fun a b => strLt a.1 b.1 = true) := by
  intro m
  induction m with
  | nil => intro _; simp [insertSorted]
  | cons hd rest ih =>
    obtain ⟨k0, t0⟩ := hd
    intro hp
    rw [List.pairwise_cons] at hp
    obtain ⟨hall, hrest⟩ := hp
    rw [insertSorted]
    by_cases h1 : strLt k k0 = true
    · rw [if_pos h1]
      refine List.Pairwise.cons ?_ (List.Pairwise.cons hall hrest)
      intro x hx
      rcases List.mem_cons.mp hx with hx | hx
      · rw [hx]
        exact h1
      · exact strLt_trans _ _ _ h1 (hall x hx)
    · rw [if_neg h1]
      by_cases h2 : strLt k0 k = true
      · rw [if_pos h2]
        refine List.Pairwise.cons ?_ (ih hrest)
        intro x hx
        have hx1 : x.1 ∈ (insertSorted k t rest).map Prod.fst :=
          List.mem_map_of_mem Prod.fst hx
        rcases (keys_insertSorted k t rest x.1).mp hx1 with h | h
        · rw [h]
          exact h2
        · obtain ⟨y, hy, hyx⟩ := List.mem_map.mp h
          rw [← hyx]
          exact hall y hy
      · rw [if_neg h2]
        have hk : k = k0 := strLt_total_eq k k0 (by simpa using h1) (by simpa using h2)
        subst hk
        exact List.Pairwise.cons hall hrest

theorem buildMap_sorted (ign : String → Bool) (params : Params) (l : Entries) :
    (buildMap ign params l).Pairwise (fun a b => strLt a.1 b.1 = true) := by
  rw [buildMap]
  have aux : ∀ (l2 : Entries) (acc : Entries),
      acc.Pairwise (fun a b => strLt a.1 b.1 = true) →
      (List.foldl
        (fun m e => if ign e.1 then m else insertSorted (keyOf params e.1) e.2 m) acc
        l2).Pairwise (fun a b => strLt a.1 b.1 = true) := by
    intro l2
    induction l2 with
    | nil => intro acc h; simpa using h
    | cons e rest ih =>
      intro acc h
      simp only [List.foldl]
      by_cases hig : ign e.1
      · rw [if_pos hig]
        exact ih acc h
      · rw [if_neg hig]
        exact ih _ (sorted_insertSorted (keyOf params e.1) e.2 acc h)
  exact aux l [] (by simp)

theorem notMem_keys_of_forall (a : String) (l : Entries)
    (h : ∀ x ∈ l, strLt a x.1 = true) : a ∉ l.map Prod.fst := by
  intro hmem
  obtain ⟨y, hy, hya⟩ := List.mem_map.mp hmem
  have hlt := h y hy
  rw [hya] at hlt
  rw [strLt_irrefl] at hlt
  exact absurd hlt (by simp)

theorem head_notMem_tail (k0 : String) (t0 : FSTree) (rest : Entries)
    (hp : ((k0, t0) :: rest).Pairwise (fun a b => strLt a.1 b.1 = true)) :
    k0 ∉ rest.map Prod.fst := by
  rw [List.pairwise_cons] at hp
  exact notMem_keys_of_forall k0 rest hp.1

theorem lt_head_notMem (a k0 : String) (t0 : FSTree) (rest : Entries)
    (hlt : strLt a k0 = true)
    (hp : ((k0, t0) :: rest).Pairwise (fun a b => strLt a.1 b.1 = true)) :
    a ∉ ((k0, t0) :: rest).map Prod.fst := by
  rw [List.pairwise_cons] at hp
  refine notMem_keys_of_forall a _ ?_
  intro x hx
  rcases List.mem_cons.mp hx with hx | hx
  · rw [hx]
    exact hlt
  · exact strLt_trans _ _ _ hlt (hp.1 x hx)

theorem mem_pf {c : Prop} [Decidable c] {k : String} {e : Event}
    (h : e ∈ (if c then [Event.progressFilesEv k] else [])) :
    e = Event.progressFilesEv k := by
  split at h
  · simpa using h
  · simp at h

theorem compareSame_events (params : Params) (k : String) (st dt : FSTree) :
    ∀ e ∈ (compareSame params k st dt).2,
      eventKey e = some k ∧ (∀ k', isSrcOnlyEv k' e = false) ∧
      (∀ k', isDstOnlyEv k' e = false) := by
  rw [compareSame]
  split
  · split <;>
      · intro e he
        simp only [List.mem_append, List.mem_singleton] at he
        rcases he with h | h
        · rw [mem_pf h]
          exact ⟨rfl, fun k' => rfl, fun k' => rfl⟩
        · rw [h]
          exact ⟨rfl, fun k' => rfl, fun k' => rfl⟩
  · split
    · intro e he
      simp only [List.mem_append, List.mem_cons, List.mem_singleton,
        List.not_mem_nil, or_false] at he
      rcases he with h | h | h
      · rw [mem_pf h]
        exact ⟨rfl, fun k' => rfl, fun k' => rfl⟩
      · rw [h]
        exact ⟨rfl, fun k' => rfl, fun k' => rfl⟩
      · rw [h]
        exact ⟨rfl, fun k' => rfl, fun k' => rfl⟩
    · intro e he
      simp only [List.mem_append, List.mem_singleton] at he
      rcases he with h | h
      · rw [mem_pf h]
        exact ⟨rfl, fun k' => rfl, fun k' => rfl⟩
      · rw [h]
        exact ⟨rfl, fun k' => rfl, fun k' => rfl⟩
  · split <;>
      · intro e he
        simp only [List.mem_append, List.mem_singleton] at he
        rcases he with h | h
        · rw [mem_pf h]
          exact ⟨rfl, fun k' => rfl, fun k' => rfl⟩
        · rw [h]
          exact ⟨rfl, fun k' => rfl, fun k' => rfl⟩
  · split
    · intro e he
      simp only [List.mem_append, List.mem_cons, List.mem_singleton,
        List.not_mem_nil, or_false] at he
      rcases he with h | h
      · rw [mem_pf h]
        exact ⟨rfl, fun k' => rfl, fun k' => rfl⟩
      · rcases h with h | h <;>
          · rw [h]
            exact ⟨rfl, fun k' => rfl, fun k' => rfl⟩
    · intro e he
      simp only [List.mem_append, List.mem_singleton] at he
      rcases he with h | h
      · rw [mem_pf h]
        exact ⟨rfl, fun k' => rfl, fun k' => rfl⟩
      · rw [h]
        exact ⟨rfl, fun k' => rfl, fun k' => rfl⟩
  · split
    · intro e he
      simp only [List.mem_append, List.mem_cons, List.mem_singleton,
        List.not_mem_nil, or_false] at he
      rcases he with h | h
      · rw [mem_pf h]
        exact ⟨rfl, fun k' => rfl, fun k' => rfl⟩
      · rcases h with h | h <;>
          · rw [h]
            exact ⟨rfl, fun k' => rfl, fun k' => rfl⟩
    · intro e he
      simp only [List.mem_append, List.mem_singleton] at he
      rcases he with h | h
      · rw [mem_pf h]
        exact ⟨rfl, fun k' => rfl, fun k' => rfl⟩
      · rw [h]
        exact ⟨rfl, fun k' => rfl, fun k' => rfl⟩
  · split
    · intro e he
      simp only [List.mem_append, List.mem_cons, List.mem_singleton,
        List.not_mem_nil, or_false] at he
      rcases he with h | h
      · rw [mem_pf h]
        exact ⟨rfl, fun k' => rfl, fun k' => rfl⟩
      · rcases h with h | h <;>
          · rw [h]
            exact ⟨rfl, fun k' => rfl, fun k' => rfl⟩
    · split <;>
        · intro e he
          simp only [List.mem_append, List.mem_singleton] at he
          rcases he with h | h
          · rw [mem_pf h]
            exact ⟨rfl, fun k' => rfl, fun k' => rfl⟩
          · rw [h]
            exact ⟨rfl, fun k' => rfl, fun k' => rfl⟩
  · split
    · intro e he
      simp only [List.mem_append, List.mem_cons, List.mem_singleton,
        List.not_mem_nil, or_false] at he
      rcases he with h | h
      · rw [mem_pf h]
        exact ⟨rfl, fun k' => rfl, fun k' => rfl⟩
      · rcases h with h | h <;>
          · rw [h]
            exact ⟨rfl, fun k' => rfl, fun k' => rfl⟩
    · split <;>
        · intro e he
          simp only [List.mem_append, List.mem_singleton] at he
          rcases he with h | h
          · rw [mem_pf h]
            exact ⟨rfl, fun k' => rfl, fun k' => rfl⟩
          · rw [h]
            exact ⟨rfl, fun k' => rfl, fun k' => rfl⟩
  · intro e he
    simp only [List.mem_append, List.mem_cons, List.mem_singleton,
      List.not_mem_nil, or_false] at he
    rcases he with h | h
    · rw [mem_pf h]
      exact ⟨rfl, fun k' => rfl, fun k' => rfl⟩
    · rcases h with h | h <;>
        · rw [h]
          exact ⟨rfl, fun k' => rfl, fun k' => rfl⟩
  · intro e he
    rw [mem_pf he]
    exact ⟨rfl, fun k' => rfl, fun k' => rfl⟩


theorem mem_cons_ne {α : Type} {k a : α} {l : List α} (h : ¬ a = k) :
    (k ∈ a :: l) ↔ k ∈ l := by
  constructor
  · intro h1
    rcases List.mem_cons.mp h1 with h1 | h1
    · exact absurd h1.symm h
    · exact h1
  · intro h1
    exact List.mem_cons.mpr (Or.inr h1)

theorem compareSame_countP_zero (params : Params) (k : String) (st dt : FSTree)
    (k' : String) :
    (compareSame params k st dt).2.countP (isSrcOnlyEv k') = 0 ∧
    (compareSame params k st dt).2.countP (isDstOnlyEv k') = 0 := by
  refine ⟨List.countP_eq_zero.mpr ?_, List.countP_eq_zero.mpr ?_⟩
  · intro e he
    have h := (compareSame_events params k st dt e he).2.1 k'
    simp [h]
  · intro e he
    have h := (compareSame_events params k st dt e he).2.2 k'
    simp [h]

theorem mergeLoop_countP (params : Params) : ∀ N : Nat, ∀ s d : Entries,
    s.length + d.length ≤ N →
    s.Pairwise (fun a b => strLt a.1 b.1 = true) →
    d.Pairwise (fun a b => strLt a.1 b.1 = true) →
    ∀ k : String,
      ((mergeLoop params s d).2.countP (isSrcOnlyEv k) =
        if k ∈ s.map Prod.fst ∧ k ∉ d.map Prod.fst then 1 else 0) ∧
      ((mergeLoop params s d).2.countP (isDstOnlyEv k) =
        if k ∈ d.map Prod.fst ∧ k ∉ s.map Prod.fst then 1 else 0) := by
  intro N
  induction N using Nat.strong_induction_on with
  | _ N ih =>
    intro s d hN hs hd k
    match s, d with
    | [], [] =>
      rw [mergeLoop]
      simp
    | (sk, st) :: sr, [] =>
      rw [mergeLoop]
      simp only [List.length_cons, List.length_nil] at hN
      obtain ⟨hr1, hr2⟩ := ih (sr.length) (by omega) sr [] (by simp) hs.of_cons hd k
      have hsk : sk ∉ sr.map Prod.fst := head_notMem_tail sk st sr hs
      constructor
      · rw [List.countP_cons, hr1]
        by_cases hk : sk = k
        · subst hk
          simp [isSrcOnlyEv, hsk]
        · have hpk : isSrcOnlyEv k (Event.srcOnly sk) = false := by
            simp [isSrcOnlyEv, hk]
          by_cases hmem : k ∈ sr.map Prod.fst
          · simp [hpk, hmem, Ne.symm hk]
          · simp [hpk, hmem, Ne.symm hk]
      · rw [List.countP_cons, hr2]
        simp [isDstOnlyEv]
    | [], (dk, dt) :: dr =>
      rw [mergeLoop]
      simp only [List.length_cons, List.length_nil] at hN
      obtain ⟨hr1, hr2⟩ := ih (dr.length) (by omega) [] dr (by simp) hs hd.of_cons k
      have hdk : dk ∉ dr.map Prod.fst := head_notMem_tail dk dt dr hd
      constructor
      · rw [List.countP_cons, hr1]
        simp [isSrcOnlyEv]
      · rw [List.countP_cons, hr2]
        by_cases hk : dk = k
        · subst hk
          simp [isDstOnlyEv, hdk]
        · have hpk : isDstOnlyEv k (Event.dstOnly dk) = false := by
            simp [isDstOnlyEv, hk]
          by_cases hmem : k ∈ dr.map Prod.fst
          · simp [hpk, hmem, Ne.symm hk]
          · simp [hpk, hmem, Ne.symm hk]
    | (sk, st) :: sr, (dk, dt) :: dr =>
      rw [mergeLoop]
      simp only [List.length_cons] at hN
      by_cases h1 : strLt sk dk = true
      · rw [if_pos h1]
        obtain ⟨hr1, hr2⟩ := ih (sr.length + (dr.length + 1)) (by omega) sr ((dk, dt) :: dr)
          (by simp) hs.of_cons hd k
        have hskd : sk ∉ ((dk, dt) :: dr).map Prod.fst := lt_head_notMem sk dk dt dr h1 hd
        have hsk : sk ∉ sr.map Prod.fst := head_notMem_tail sk st sr hs
        simp only [List.map_cons] at hskd
        constructor
        · rw [List.countP_cons, hr1]
          by_cases hk : sk = k
          · subst hk
            simp [isSrcOnlyEv, hsk, hskd]
          · have hpk : isSrcOnlyEv k (Event.srcOnly sk) = false := by
              simp [isSrcOnlyEv, hk]
            by_cases hm1 : k ∈ sr.map Prod.fst
            · by_cases hm2 : k ∈ dk :: dr.map Prod.fst
              · simp [hpk, hm1, hm2, Ne.symm hk]
              · simp [hpk, hm1, hm2, Ne.symm hk]
            · by_cases hm2 : k ∈ dk :: dr.map Prod.fst
              · simp [hpk, hm1, hm2, Ne.symm hk]
              · simp [hpk, hm1, hm2, Ne.symm hk]
        · rw [List.countP_cons, hr2]
          have hpk : isDstOnlyEv k (Event.srcOnly sk) = false := rfl
          by_cases hm2 : k ∈ dk :: dr.map Prod.fst
          · have hksk : ¬ sk = k := by
              intro h
              subst h
              exact absurd hm2 hskd
            by_cases hm1 : k ∈ sr.map Prod.fst
            · simp [hpk, hm1, hm2, Ne.symm hksk]
            · simp [hpk, hm1, hm2, Ne.symm hksk]
          · simp [hpk, hm2]
      · rw [if_neg h1]
        by_cases h2 : strLt dk sk = true
        · rw [if_pos h2]
          obtain ⟨hr1, hr2⟩ := ih ((sr.length + 1) + dr.length) (by omega) ((sk, st) :: sr)
            dr (by simp) hs hd.of_cons k
          have hdks : dk ∉ ((sk, st) :: sr).map Prod.fst := lt_head_notMem dk sk st sr h2 hs
          have hdk : dk ∉ dr.map Prod.fst := head_notMem_tail dk dt dr hd
          simp only [List.map_cons] at hdks
          constructor
          · rw [List.countP_cons, hr1]
            have hpk : isSrcOnlyEv k (Event.dstOnly dk) = false := rfl
            by_cases hm1 : k ∈ sk :: sr.map Prod.fst
            · have hkdk : ¬ dk = k := by
                intro h
                subst h
                exact absurd hm1 hdks
              by_cases hm2 : k ∈ dr.map Prod.fst
              · simp [hpk, hm1, hm2, Ne.symm hkdk]
              · simp [hpk, hm1, hm2, Ne.symm hkdk]
            · simp [hpk, hm1]
          · rw [List.countP_cons, hr2]
            by_cases hk : dk = k
            · subst hk
              simp [isDstOnlyEv, hdk, hdks]
            · have hpk : isDstOnlyEv k (Event.dstOnly dk) = false := by
                simp [isDstOnlyEv, hk]
              by_cases hm1 : k ∈ sk :: sr.map Prod.fst
              · by_cases hm2 : k ∈ dr.map Prod.fst
                · simp [hpk, hm1, hm2, Ne.symm hk]
                · simp [hpk, hm1, hm2, Ne.symm hk]
              · by_cases hm2 : k ∈ dr.map Prod.fst
                · simp [hpk, hm1, hm2, Ne.symm hk]
                · simp [hpk, hm1, hm2, Ne.symm hk]
        · rw [if_neg h2]
          have hkeq : sk = dk := strLt_total_eq sk dk (by simpa using h1) (by simpa using h2)
          subst hkeq
          obtain ⟨hr1, hr2⟩ := ih (sr.length + dr.length) (by omega) sr dr (by simp)
            hs.of_cons hd.of_cons k
          have hsk : sk ∉ sr.map Prod.fst := head_notMem_tail sk st sr hs
          have hdk : sk ∉ dr.map Prod.fst := head_notMem_tail sk dt dr hd
          have hc1 : (if getFileType st params.followSymlinks ≠
                getFileType dt params.followSymlinks then
              ((false, [Event.typeMismatchEv sk]) : Bool × List Event)
            else compareSame params sk st dt).2.countP (isSrcOnlyEv k) = 0 := by
            split
            · simp [isSrcOnlyEv]
            · exact (compareSame_countP_zero params sk st dt k).1
          have hc2 : (if getFileType st params.followSymlinks ≠
                getFileType dt params.followSymlinks then
              ((false, [Event.typeMismatchEv sk]) : Bool × List Event)
            else compareSame params sk st dt).2.countP (isDstOnlyEv k) = 0 := by
            split
            · simp [isDstOnlyEv]
            · exact (compareSame_countP_zero params sk st dt k).2
          constructor
          · rw [List.countP_append, hc1, hr1]
            by_cases hk : sk = k
            · subst hk
              simp [hsk]
            · by_cases hm1 : k ∈ sr.map Prod.fst
              · by_cases hm2 : k ∈ dr.map Prod.fst
                · simp [hm1, hm2, Ne.symm hk]
                · simp [hm1, hm2, Ne.symm hk]
              · by_cases hm2 : k ∈ dr.map Prod.fst
                · simp [hm1, hm2, Ne.symm hk]
                · simp [hm1, hm2, Ne.symm hk]
          · rw [List.countP_append, hc2, hr2]
            by_cases hk : sk = k
            · subst hk
              simp [hdk]
            · by_cases hm1 : k ∈ sr.map Prod.fst
              · by_cases hm2 : k ∈ dr.map Prod.fst
                · simp [hm1, hm2, Ne.symm hk]
                · simp [hm1, hm2, Ne.symm hk]
              · by_cases hm2 : k ∈ dr.map Prod.fst
                · simp [hm1, hm2, Ne.symm hk]
                · simp [hm1, hm2, Ne.symm hk]

theorem keysOf_compareSame (params : Params) (k : String) (st dt : FSTree) :
    ∀ x ∈ keysOf (compareSame params k st dt).2, x = k := by
  intro x hx
  simp only [keysOf, List.mem_filterMap] at hx
  obtain ⟨e, he, hk⟩ := hx
  have hkey := (compareSame_events params k st dt e he).1
  rw [hkey] at hk
  exact (Option.some.inj hk).symm

theorem forall_keys_of_pairwise {k0 : String} {t0 : FSTree} {rest : Entries}
    (hp : ((k0, t0) :: rest).Pairwise (fun a b => strLt a.1 b.1 = true)) :
    ∀ x ∈ rest.map Prod.fst, strLt k0 x = true := by
  rw [List.pairwise_cons] at hp
  intro x hx
  obtain ⟨y, hy, hyx⟩ := List.mem_map.mp hx
  rw [← hyx]
  exact hp.1 y hy

theorem pairwise_of_all_eq (k : String) :
    ∀ l : List String, (∀ x ∈ l, x = k) →
      l.Pairwise (fun a b => strLt a b = true ∨ a = b) := by
  intro l
  induction l with
  | nil => intro _; simp
  | cons x xs ih =>
    intro h
    refine List.Pairwise.cons ?_ (ih fun y hy => h y (List.mem_cons.mpr (Or.inr hy)))
    intro y hy
    right
    rw [h x (List.mem_cons.mpr (Or.inl rfl)), h y (List.mem_cons.mpr (Or.inr hy))]

theorem mergeLoop_keys_bound (params : Params) : ∀ N : Nat, ∀ s d : Entries,
    s.length + d.length ≤ N →
    ∀ x ∈ keysOf (mergeLoop params s d).2, x ∈ s.map Prod.fst ∨ x ∈ d.map Prod.fst := by
  intro N
  induction N using Nat.strong_induction_on with
  | _ N ih =>
    intro s d hN x hx
    match s, d with
    | [], [] =>
      rw [mergeLoop] at hx
      simp [keysOf] at hx
    | (sk, st) :: sr, [] =>
      rw [mergeLoop] at hx
      simp only [List.length_cons, List.length_nil] at hN
      simp only [keysOf, List.filterMap_cons, eventKey] at hx
      rcases List.mem_cons.mp hx with hx | hx
      · exact Or.inl (by simp [hx])
      · rcases ih (sr.length) (by omega) sr [] (by simp) x hx with h | h
        · exact Or.inl (by simp; exact Or.inr (by simpa using h))
        · simp at h
    | [], (dk, dt) :: dr =>
      rw [mergeLoop] at hx
      simp only [List.length_cons, List.length_nil] at hN
      simp only [keysOf, List.filterMap_cons, eventKey] at hx
      rcases List.mem_cons.mp hx with hx | hx
      · exact Or.inr (by simp [hx])
      · rcases ih (dr.length) (by omega) [] dr (by simp) x hx with h | h
        · simp at h
        · exact Or.inr (by simp; exact Or.inr (by simpa using h))
    | (sk, st) :: sr, (dk, dt) :: dr =>
      rw [mergeLoop] at hx
      simp only [List.length_cons] at hN
      by_cases h1 : strLt sk dk = true
      · rw [if_pos h1] at hx
        simp only [keysOf, List.filterMap_cons, eventKey] at hx
        rcases List.mem_cons.mp hx with hx | hx
        · exact Or.inl (by simp [hx])
        · rcases ih (sr.length + (dr.length + 1)) (by omega) sr ((dk, dt) :: dr) (by simp)
            x hx with h | h
          · exact Or.inl (by simp; exact Or.inr (by simpa using h))
          · exact Or.inr h
      · rw [if_neg h1] at hx
        by_cases h2 : strLt dk sk = true
        · rw [if_pos h2] at hx
          simp only [keysOf, List.filterMap_cons, eventKey] at hx
          rcases List.mem_cons.mp hx with hx | hx
          · exact Or.inr (by simp [hx])
          · rcases ih ((sr.length + 1) + dr.length) (by omega) ((sk, st) :: sr) dr (by simp)
              x hx with h | h
            · exact Or.inl h
            · exact Or.inr (by simp; exact Or.inr (by simpa using h))
        · rw [if_neg h2] at hx
          simp only [keysOf, List.filterMap_append] at hx
          rcases List.mem_append.mp hx with hx | hx
          · -- keys of the same-key comparison: all equal sk
            have hxk : x = sk := by
              revert hx
              split
              · intro hx
                simp only [List.filterMap_cons, eventKey, List.filterMap_nil] at hx
                simpa using hx
              · intro hx
                exact keysOf_compareSame params sk st dt x hx
            exact Or.inl (by simp [hxk])
          · rcases ih (sr.length + dr.length) (by omega) sr dr (by simp) x hx with h | h
            · exact Or.inl (by simp; exact Or.inr (by simpa using h))
            · exact Or.inr (by simp; exact Or.inr (by simpa using h))

theorem mergeLoop_keys_sorted (params : Params) : ∀ N : Nat, ∀ s d : Entries,
    s.length + d.length ≤ N →
    s.Pairwise (fun a b => strLt a.1 b.1 = true) →
    d.Pairwise (fun a b => strLt a.1 b.1 = true) →
    (keysOf (mergeLoop params s d).2).Pairwise
      (fun a b => strLt a b = true ∨ a = b) := by
  intro N
  induction N using Nat.strong_induction_on with
  | _ N ih =>
    intro s d hN hs hd
    match s, d with
    | [], [] =>
      rw [mergeLoop]
      simp [keysOf]
    | (sk, st) :: sr, [] =>
      rw [mergeLoop]
      simp only [List.length_cons, List.length_nil] at hN
      simp only [keysOf, List.filterMap_cons, eventKey]
      refine List.Pairwise.cons ?_ (ih (sr.length) (by omega) sr [] (by simp) hs.of_cons hd)
      intro x hx
      rcases mergeLoop_keys_bound params (sr.length) sr [] (by simp) x hx with h | h
      · exact Or.inl (forall_keys_of_pairwise hs x h)
      · simp at h
    | [], (dk, dt) :: dr =>
      rw [mergeLoop]
      simp only [List.length_cons, List.length_nil] at hN
      simp only [keysOf, List.filterMap_cons, eventKey]
      refine List.Pairwise.cons ?_ (ih (dr.length) (by omega) [] dr (by simp) hs hd.of_cons)
      intro x hx
      rcases mergeLoop_keys_bound params (dr.length) [] dr (by simp) x hx with h | h
      · simp at h
      · exact Or.inl (forall_keys_of_pairwise hd x h)
    | (sk, st) :: sr, (dk, dt) :: dr =>
      rw [mergeLoop]
      simp only [List.length_cons] at hN
      by_cases h1 : strLt sk dk = true
      · rw [if_pos h1]
        simp only [keysOf, List.filterMap_cons, eventKey]
        refine List.Pairwise.cons ?_ (ih (sr.length + (dr.length + 1)) (by omega) sr
          ((dk, dt) :: dr) (by simp) hs.of_cons hd)
        intro x hx
        rcases mergeLoop_keys_bound params (sr.length + (dr.length + 1)) sr ((dk, dt) :: dr)
          (by simp) x hx with h | h
        · exact Or.inl (forall_keys_of_pairwise hs x h)
        · simp only [List.map_cons] at h
          rcases List.mem_cons.mp h with h | h
          · rw [h]
            exact Or.inl h1
          · exact Or.inl (strLt_trans sk dk x h1 (forall_keys_of_pairwise hd x h))
      · rw [if_neg h1]
        by_cases h2 : strLt dk sk = true
        · rw [if_pos h2]
          simp only [keysOf, List.filterMap_cons, eventKey]
          refine List.Pairwise.cons ?_ (ih ((sr.length + 1) + dr.length) (by omega)
            ((sk, st) :: sr) dr (by simp) hs hd.of_cons)
          intro x hx
          rcases mergeLoop_keys_bound params ((sr.length + 1) + dr.length) ((sk, st) :: sr)
            dr (by simp) x hx with h | h
          · simp only [List.map_cons] at h
            rcases List.mem_cons.mp h with h | h
            · rw [h]
              exact Or.inl h2
            · exact Or.inl (strLt_trans dk sk x h2 (forall_keys_of_pairwise hs x h))
          · exact Or.inl (forall_keys_of_pairwise hd x h)
        · rw [if_neg h2]
          have hkeq : sk = dk := strLt_total_eq sk dk (by simpa using h1) (by simpa using h2)
          subst hkeq
          simp only [keysOf, List.filterMap_append]
          rw [List.pairwise_append]
          have hcall : ∀ x ∈ List.filterMap eventKey
              (if getFileType st params.followSymlinks ≠
                  getFileType dt params.followSymlinks then
                ((false, [Event.typeMismatchEv sk]) : Bool × List Event)
              else compareSame params sk st dt).2, x = sk := by
            intro x hx
            revert hx
            split
            · intro hx
              simp only [List.filterMap_cons, eventKey, List.filterMap_nil] at hx
              simpa using hx
            · intro hx
              exact keysOf_compareSame params sk st dt x hx
          refine ⟨pairwise_of_all_eq sk _ hcall,
            ih (sr.length + dr.length) (by omega) sr dr (by simp) hs.of_cons hd.of_cons,
            ?_⟩
          intro a ha b hb
          rw [hcall a ha]
          rcases mergeLoop_keys_bound params (sr.length + dr.length) sr dr (by simp) b hb
            with h | h
          · exact Or.inl (forall_keys_of_pairwise hs b h)
          · exact Or.inl (forall_keys_of_pairwise hd b h)

/-- C2: for the pair of keyed maps built from the two sides, the comparison
loop emits exactly one SrcOnly event for each key present only in the source
map and exactly one DstOnly event for each key present only in the
destination map, and the keys of the events it emits for one directory are
in ascending lexicographic order. -/
theorem merge_counts_and_order (params : Params) (src dst : Entries) :
    (∀ k : String,
      (mergeLoop params (buildMap (fun n => ignoreSrcFile n params) params src)
          (buildMap (fun n => ignoreDstFile n params) params dst)).2.countP
        (isSrcOnlyEv k) =
        if k ∈ (buildMap (fun n => ignoreSrcFile n params) params src).map Prod.fst ∧
            k ∉ (buildMap (fun n => ignoreDstFile n params) params dst).map Prod.fst
        then 1 else 0) ∧
    (∀ k : String,
      (mergeLoop params (buildMap (fun n => ignoreSrcFile n params) params src)
          (buildMap (fun n => ignoreDstFile n params) params dst)).2.countP
        (isDstOnlyEv k) =
        if k ∈ (buildMap (fun n => ignoreDstFile n params) params dst).map Prod.fst ∧
            k ∉ (buildMap (fun n => ignoreSrcFile n params) params src).map Prod.fst
        then 1 else 0) ∧
    (keysOf (mergeLoop params (buildMap (fun n => ignoreSrcFile n params) params src)
        (buildMap (fun n => ignoreDstFile n params) params dst)).2).Pairwise
      (fun a b => strLt a b = true ∨ a = b) := by
  have hs := buildMap_sorted (fun n => ignoreSrcFile n params) params src
  have hd := buildMap_sorted (fun n => ignoreDstFile n params) params dst
  refine ⟨fun k => (mergeLoop_countP params
      ((buildMap (fun n => ignoreSrcFile n params) params src).length +
        (buildMap (fun n => ignoreDstFile n params) params dst).length) _ _
      (le_refl _) hs hd k).1,
    fun k => (mergeLoop_countP params
      ((buildMap (fun n => ignoreSrcFile n params) params src).length +
        (buildMap (fun n => ignoreDstFile n params) params dst).length) _ _
      (le_refl _) hs hd k).2,
    mergeLoop_keys_sorted params
      ((buildMap (fun n => ignoreSrcFile n params) params src).length +
        (buildMap (fun n => ignoreDstFile n params) params dst).length) _ _
      (le_refl _) hs hd⟩

/-! ### Concrete witnesses -/

/-- Witness for `update_mismatch_copy_guard`: with ignore-mtime unset and the
source (mtime 0) older than the destination (mtime 5), the update-mode
mismatch handler changes nothing. -/
theorem update_mismatch_guard_witness :
    mismatchAction false true false ["s"] "a" (FSTree.regular [1] 0) ["a"]
        (FSTree.regular [2] 5) false {} false [] = .ok ⟨[], [], []⟩ :=
  (update_mismatch_copy_guard false false ["s"] "a" (FSTree.regular [1] 0) ["a"]
    (FSTree.regular [2] 5) false {} false []).1 (by decide)

/-- Witness for `copy_overwrite_delete_guard`: copying a directory over an
existing regular file with overwrite runs the recursive deletion first. -/
theorem copy_overwrite_delete_guard_witness :
    copyRecursive [] "a" (FSTree.dir 0 []) [] true false "P" {} false
        [("a", FSTree.regular [1] 0)] =
      prependOut
        (removeRecursive ([] ++ ["a"]) false ("P" ++ ": Deleting")
          ({} : Params).followSymlinks false [("a", FSTree.regular [1] 0)])
        (copyBody [] "a" (FSTree.dir 0 []) ([] ++ ["a"]) true false "P" {} false
          (removeRecursive ([] ++ ["a"]) false ("P" ++ ": Deleting")
            ({} : Params).followSymlinks false [("a", FSTree.regular [1] 0)]).fs) :=
  (copy_overwrite_delete_guard [] "a" (FSTree.dir 0 []) [] false "P" {} false
    [("a", FSTree.regular [1] 0)] (by decide)).1 (by decide) (by decide)

/-- Witness for `normalization_collision_drops_entry`: distinct raw names
"p" and "q" normalizing to the same key "k" leave one map slot holding the
later entry, and the trace reports a single SrcOnly. -/
theorem normalization_collision_witness :
    buildMap
        (fun n => ignoreSrcFile n { normalizeFilenames := true, nfd := fun _ => "k" })
        { normalizeFilenames := true, nfd := fun _ => "k" }
        [("p", FSTree.regular [1] 0), ("q", FSTree.regular [2] 0)] =
      [("k", FSTree.regular [2] 0)] ∧
    (processDir { normalizeFilenames := true, nfd := fun _ => "k" }
        [("p", FSTree.regular [1] 0), ("q", FSTree.regular [2] 0)] [] false).2 =
      [Event.progressDirsEv, Event.srcOnly "k"] :=
  normalization_collision_drops_entry { normalizeFilenames := true, nfd := fun _ => "k" }
    "p" "q" (FSTree.regular [1] 0) (FSTree.regular [2] 0) [] rfl rfl (by decide) rfl

/-- Witness for `forks_never_copied`: a source entry named "._f" is skipped
entirely by copyRecursive when fork filtering is on. -/
theorem forks_never_copied_witness :
    copyRecursive [] "._f" (FSTree.regular [1] 0) [] false false "x"
        { ignoreForksSrc := true } false [] = .ok ⟨[], [], []⟩ :=
  (forks_never_copied { ignoreForksSrc := true } [] "._f" (FSTree.regular [1] 0) []
    false false "x" false [] rfl).1 (by decide)

end TreeSync
